import Mathlib

/-!
Verification of the `wandb` artifacts public API client
(`wandb/apis/public/artifacts.py`) and the GraphQL codegen plugin
(`tools/graphql_codegen/plugin.py`, `plugin_utils.py`).

The Python code is shallowly embedded: stateful methods become pure
functions from explicit state to (new state, list of issued GraphQL
calls); fallible paths return `Except`.  Response fragments keep only
the fields the code reads.
-/

namespace WandbVer

/-! ### Server response fragments (pydantic models of GraphQL payloads) -/

/-- GraphQL `PageInfo`: server-reported pagination flags. -/
structure PageInfo where
  has_next_page : Bool
  end_cursor : Option String
deriving DecidableEq

/-- Node of a `ProjectArtifactTypes` edge (the fields `convert_objects` reads). -/
structure ArtifactTypeNode where
  id : String
  name : String
deriving DecidableEq

structure ArtifactTypeEdge where
  node : Option ArtifactTypeNode
deriving DecidableEq

/-- `ArtifactTypeConnectionFragment`: the validated inner connection cached as
`ArtifactTypes.last_response`. -/
structure ArtifactTypeConnectionFragment where
  page_info : PageInfo
  edges : List ArtifactTypeEdge
deriving DecidableEq

/-- The `ArtifactType` domain object, as built by `ArtifactTypes.convert_objects`. -/
structure ArtifactType where
  entity : String
  project : String
  type_name : String
  attrs : ArtifactTypeNode
deriving DecidableEq

structure ArtifactCollectionNode where
  name : String
deriving DecidableEq

structure ArtifactCollectionEdge where
  node : Option ArtifactCollectionNode
deriving DecidableEq

/-- `ArtifactCollectionConnectionFragment`: cached as
`ArtifactCollections.last_response`; carries the server-reported `totalCount`. -/
structure ArtifactCollectionConnectionFragment where
  page_info : PageInfo
  total_count : Int
  edges : List ArtifactCollectionEdge
deriving DecidableEq

/-- Constructor arguments of the `ArtifactCollection` objects produced by
`ArtifactCollections.convert_objects` (the real constructor also issues a
network `load()`, which is outside this model). -/
structure ArtifactCollectionRef where
  entity : String
  project : String
  name : String
  type : String
deriving DecidableEq

/-- Node (artifact attrs) of a `ProjectArtifacts` edge: the embedding keeps the
tag names, which is the only attribute `Artifacts.convert_objects` inspects. -/
structure ArtifactAttrs where
  tags : List String
deriving DecidableEq

structure ArtifactEdge where
  version : String
  node : Option ArtifactAttrs
deriving DecidableEq

/-- `ArtifactsFragment`: cached as `Artifacts.last_response`. -/
structure ArtifactsFragment where
  page_info : PageInfo
  total_count : Int
  edges : List ArtifactEdge
deriving DecidableEq

/-- Modelled from the spec: the `wandb.Artifact` domain object
(`wandb.sdk.artifacts.artifact.Artifact`, not part of the three source files)
is a typed object wrapping a validated response fragment; `_from_attrs`
constructs it from a pre-fetched attrs fragment and `tags` exposes the
fragment's tag names. -/
structure Artifact where
  entity : String
  project : String
  name : String
  tags : List String
deriving DecidableEq

/-- Modelled from the spec: `wandb.Artifact._from_attrs` builds an artifact
object from a pre-fetched attribute fragment, skipping any network fetch. -/
def Artifact.from_attrs (entity project name : String) (attrs : ArtifactAttrs) : Artifact :=
  ⟨entity, project, name, attrs.tags⟩

structure RunArtifactProject where
  entity_name : String
  name : String
deriving DecidableEq

structure RunArtifactSequence where
  name : String
  project : Option RunArtifactProject
deriving DecidableEq

structure RunArtifactNode where
  version_index : Nat
  artifact_sequence : Option RunArtifactSequence
  tags : List String
deriving DecidableEq

structure RunArtifactEdge where
  node : Option RunArtifactNode
deriving DecidableEq

/-- Inner connection of `RunOutputArtifacts` / `RunInputArtifacts`, cached as
`RunArtifacts.last_response`. -/
structure RunArtifactsConnection where
  page_info : PageInfo
  total_count : Int
  edges : List RunArtifactEdge
deriving DecidableEq

structure FileNode where
  name : String
deriving DecidableEq

structure FileEdge where
  node : Option FileNode
deriving DecidableEq

/-- `FilesFragment`: cached as `ArtifactFiles.last_response`. -/
structure FilesFragment where
  page_info : PageInfo
  edges : List FileEdge
deriving DecidableEq

/-- `public.File`, as built by `ArtifactFiles.convert_objects`. -/
structure PublicFile where
  attrs : FileNode
deriving DecidableEq

/-! ### Paginator methods

Each paginator's `more` / `cursor` / `convert_objects` / `_length` is a pure
function of its `last_response` cache (`None` before any page is fetched).

The sized paginators' `_length` first calls the base `SizedPaginator._load_page`
when `last_response is None`.  Modelled from the spec: `_load_page` (defined in
`wandb/apis/paginator.py`, not among the source files) issues one network query
and caches the validated response as `last_response`; the embedding passes the
page that fetch would produce as the `fetched` argument and returns the updated
cache together with the value of the property. -/

namespace ArtifactTypes

def more (last_response : Option ArtifactTypeConnectionFragment) : Bool :=
  match last_response with
  | none => true
  | some r => r.page_info.has_next_page

def cursor (last_response : Option ArtifactTypeConnectionFragment) : Option String :=
  match last_response with
  | none => none
  | some r => r.page_info.end_cursor

def convert_objects (entity project : String)
    (last_response : Option ArtifactTypeConnectionFragment) : List ArtifactType :=
  match last_response with
  | none => []
  | some r => r.edges.filterMap fun edge =>
      edge.node.map fun node => ⟨entity, project, node.name, node⟩

end ArtifactTypes

namespace ArtifactCollections

def more (last_response : Option ArtifactCollectionConnectionFragment) : Bool :=
  match last_response with
  | none => true
  | some r => r.page_info.has_next_page

def cursor (last_response : Option ArtifactCollectionConnectionFragment) : Option String :=
  match last_response with
  | none => none
  | some r => r.page_info.end_cursor

def convert_objects (entity project type_name : String)
    (last_response : Option ArtifactCollectionConnectionFragment) :
    List ArtifactCollectionRef :=
  match last_response with
  | none => []
  | some r => r.edges.filterMap fun edge =>
      edge.node.map fun node => ⟨entity, project, node.name, type_name⟩

def length_ (fetched : ArtifactCollectionConnectionFragment)
    (last_response : Option ArtifactCollectionConnectionFragment) :
    Option ArtifactCollectionConnectionFragment × Int :=
  match last_response with
  | none => (some fetched, fetched.total_count)
  | some r => (some r, r.total_count)

end ArtifactCollections

namespace Artifacts

def more (last_response : Option ArtifactsFragment) : Bool :=
  match last_response with
  | none => true
  | some r => r.page_info.has_next_page

def cursor (last_response : Option ArtifactsFragment) : Option String :=
  match last_response with
  | none => none
  | some r => r.page_info.end_cursor

/-- `Artifacts.convert_objects`: artifacts are built from edges with a non-null
node; when the paginator was constructed with a tags filter (`self.tags`,
normalized to a list), only artifacts whose tag set contains every required tag
are kept. -/
def convert_objects (self_tags : List String) (entity project collection_name : String)
    (last_response : Option ArtifactsFragment) : List Artifact :=
  match last_response with
  | none => []
  | some r =>
      let artifacts := r.edges.filterMap fun edge =>
        edge.node.map fun node =>
          Artifact.from_attrs entity project (collection_name ++ ":" ++ edge.version) node
      let required_tags := self_tags.toFinset
      if required_tags.Nonempty then
        artifacts.filter fun art => decide (required_tags ⊆ art.tags.toFinset)
      else
        artifacts

def length_ (fetched : ArtifactsFragment) (last_response : Option ArtifactsFragment) :
    Option ArtifactsFragment × Int :=
  match last_response with
  | none => (some fetched, fetched.total_count)
  | some r => (some r, r.total_count)

end Artifacts

namespace RunArtifacts

def more (last_response : Option RunArtifactsConnection) : Bool :=
  match last_response with
  | none => true
  | some r => r.page_info.has_next_page

def cursor (last_response : Option RunArtifactsConnection) : Option String :=
  match last_response with
  | none => none
  | some r => r.page_info.end_cursor

def convert_objects (last_response : Option RunArtifactsConnection) : List Artifact :=
  match last_response with
  | none => []
  | some r => r.edges.filterMap fun edge =>
      match edge.node with
      | none => none
      | some node =>
          match node.artifact_sequence with
          | none => none
          | some seq =>
              match seq.project with
              | none => none
              | some proj =>
                  some ⟨proj.entity_name, proj.name,
                    seq.name ++ ":v" ++ toString node.version_index, node.tags⟩

def length_ (fetched : RunArtifactsConnection) (last_response : Option RunArtifactsConnection) :
    Option RunArtifactsConnection × Int :=
  match last_response with
  | none => (some fetched, fetched.total_count)
  | some r => (some r, r.total_count)

end RunArtifacts

namespace ArtifactFiles

def more (last_response : Option FilesFragment) : Bool :=
  match last_response with
  | none => true
  | some r => r.page_info.has_next_page

def cursor (last_response : Option FilesFragment) : Option String :=
  match last_response with
  | none => none
  | some r => r.page_info.end_cursor

def convert_objects (last_response : Option FilesFragment) : List PublicFile :=
  match last_response with
  | none => []
  | some r => r.edges.filterMap fun edge => edge.node.map fun node => ⟨node⟩

/-- `ArtifactFiles._length` loads a page when none is cached, then returns
`self.artifact.file_count` — the artifact object's own file count, not a field
of the fetched `FilesFragment`. -/
def length_ (artifact_file_count : Int) (fetched : FilesFragment)
    (last_response : Option FilesFragment) : Option FilesFragment × Int :=
  match last_response with
  | none => (some fetched, artifact_file_count)
  | some r => (some r, artifact_file_count)

end ArtifactFiles

/-! ### `ArtifactCollection` staged state and `save()` -/

/-- The mutable state of an `ArtifactCollection`: staged fields (`name`,
`type`, `description`, `tags`) tracked against the last-saved snapshot
(`saved_name`, `saved_type`, `saved_tags`; the code keeps no description
snapshot). -/
structure ArtifactCollectionState where
  name : String
  saved_name : String
  type : String
  saved_type : String
  description : Option String
  tags : List String
  saved_tags : List String
  is_sequence : Bool
deriving DecidableEq

/-- One GraphQL mutation issued by `ArtifactCollection.save()`, with the
payload it carries.  Tag payloads are sets, matching `set(self._tags)` etc. -/
inductive GraphQLCall where
  | update_artifact_collection (name : String) (description : Option String) (is_sequence : Bool)
  | move_artifact_collection (destination_type : String)
  | create_tag_assignments (tags : Finset String)
  | delete_tag_assignments (tags : Finset String)
deriving DecidableEq

def added_tags? : GraphQLCall → Option (Finset String)
  | .create_tag_assignments s => some s
  | _ => none

def deleted_tags? : GraphQLCall → Option (Finset String)
  | .delete_tag_assignments s => some s
  | _ => none

/-- `ArtifactCollection.save()`.  `validate_type` abstracts the imported
`validate_artifact_type` helper (it only gates the error path).  On success the
result is the new state and the list of GraphQL calls issued, in order. -/
def save (validate_type : String → String → Bool) (st : ArtifactCollectionState) :
    Except String (ArtifactCollectionState × List GraphQLCall) :=
  if st.saved_type ≠ st.type ∧ ¬ validate_type st.type st.name then
    .error "Failed to save artifact collection: invalid new type"
  else if st.saved_type ≠ st.type ∧ ¬ validate_type st.saved_type st.name then
    .error "Failed to save artifact collection: the current type is an internal type"
  else
    let calls_update := [GraphQLCall.update_artifact_collection st.name st.description st.is_sequence]
    let st1 := { st with saved_name := st.name }
    let st2 :=
      if st.is_sequence ∧ st.saved_type ≠ st.type then { st1 with saved_type := st.type }
      else st1
    let calls_move :=
      if st.is_sequence ∧ st.saved_type ≠ st.type then
        [GraphQLCall.move_artifact_collection st.type]
      else []
    let current_tags := st.tags.toFinset
    let saved_tags := st.saved_tags.toFinset
    let calls_add :=
      if (current_tags \ saved_tags).Nonempty then
        [GraphQLCall.create_tag_assignments (current_tags \ saved_tags)]
      else []
    let calls_del :=
      if (saved_tags \ current_tags).Nonempty then
        [GraphQLCall.delete_tag_assignments (saved_tags \ current_tags)]
      else []
    .ok ({ st2 with saved_tags := st.tags },
      calls_update ++ calls_move ++ calls_add ++ calls_del)

instance {ε α : Type} [DecidableEq ε] [DecidableEq α] : DecidableEq (Except ε α) := fun x y =>
  match x, y with
  | .error a, .error b => if h : a = b then .isTrue (by rw [h]) else .isFalse (by simp [h])
  | .ok a, .ok b => if h : a = b then .isTrue (by rw [h]) else .isFalse (by simp [h])
  | .error _, .ok _ => .isFalse (by simp)
  | .ok _, .error _ => .isFalse (by simp)


/-! ### Python AST embedding for the codegen plugin

The fragments modules produced by `ariadne-codegen` consist of imports, class
definitions and expression statements; the embedding keeps the statement and
expression shapes the plugin inspects.  Base classes of a `ClassDef` are
`ast.Name` nodes and the plugin reads only their `id` (`base_class_names`), so
bases are embedded as their identifier strings. -/

inductive PExpr where
  | name (id : String)
  | strLit (s : String)
  | attr (obj : PExpr) (field_name : String)
  | subscript (v : PExpr) (idx : PExpr)
  | call (f : PExpr) (args : List PExpr)

inductive Stmt where
  | importFrom (module_name : String) (names : List String)
  | classDef (name : String) (bases : List String) (body : List Stmt)
  | exprStmt (e : PExpr)
  | passStmt
  | annAssign (target : PExpr) (ann : PExpr) (val : Option PExpr)

structure Module where
  body : List Stmt

/-- `ast` statement types, for the `type`-keyed grouping in
`generate_fragments_module`. -/
inductive StmtTy where
  | importFrom
  | classDef
  | exprStmt
  | passStmt
  | annAssign
deriving DecidableEq

def stmtType : Stmt → StmtTy
  | .importFrom _ _ => .importFrom
  | .classDef _ _ _ => .classDef
  | .exprStmt _ => .exprStmt
  | .passStmt => .passStmt
  | .annAssign _ _ _ => .annAssign

def clsName : Stmt → String
  | .classDef n _ _ => n
  | _ => ""

/-- `base_class_names`: the `id`s of the base-class `Name` nodes. -/
def clsBases : Stmt → List String
  | .classDef _ bs _ => bs
  | _ => []

/-- `make_model_rebuild`: the `ClassName.model_rebuild()` expression statement. -/
def make_model_rebuild (class_name : String) : Stmt :=
  .exprStmt (.call (.attr (.name class_name) "model_rebuild") [])

/-- One key-value insertion into a Python `dict` (as an association list in
key-insertion order): a present key keeps its position and takes the new
value, a new key is appended. -/
def dictInsert {β : Type} (acc : List (String × β)) (kv : String × β) :
    List (String × β) :=
  if acc.any fun e => decide (e.1 = kv.1) then
    acc.map fun e => if e.1 = kv.1 then (e.1, kv.2) else e
  else acc ++ [kv]

/-- Python `dict` built from a sequence of key-value pairs: keys keep
first-insertion order, a repeated key keeps the last value. -/
def dictItems {β : Type} (xs : List (String × β)) : List (String × β) :=
  xs.foldl dictInsert []

/-! ### `graphlib.TopologicalSorter` (CPython implementation) -/

/-- One `_NodeInfo` entry of `TopologicalSorter._node2info`: node name,
`npredecessors` and `successors`.  The dict is embedded as an association list
in insertion order; names are unique by construction (`_get_nodeinfo` only
appends missing nodes).  `npredecessors` is an `Int`: `get_ready` marks emitted
nodes with the sentinel `_NODE_OUT = -1` and `done` with `_NODE_DONE = -2`. -/
abbrev NodeInfo := List (String × Int × List String)

def updEntry (xs : NodeInfo) (n : String) (f : Int × List String → Int × List String) :
    NodeInfo :=
  xs.map fun e => if e.1 = n then (e.1, f e.2) else e

/-- `_get_nodeinfo`: create the entry if the node is not present. -/
def getNodeinfo (xs : NodeInfo) (n : String) : NodeInfo :=
  if xs.any fun e => decide (e.1 = n) then xs else xs ++ [(n, 0, [])]

def bumpNpred (xs : NodeInfo) (n : String) (k : Int) : NodeInfo :=
  updEntry xs n fun v => (v.1 + k, v.2)

def pushSucc (xs : NodeInfo) (p child : String) : NodeInfo :=
  updEntry xs p fun v => (v.1, v.2 ++ [child])

def setNpred (xs : NodeInfo) (n : String) (k : Int) : NodeInfo :=
  updEntry xs n fun v => (k, v.2)

def lookupNpred (xs : NodeInfo) (n : String) : Int :=
  ((xs.find? fun e => decide (e.1 = n)).map fun e => e.2.1).getD 0

def lookupSuccs (xs : NodeInfo) (n : String) : List String :=
  ((xs.find? fun e => decide (e.1 = n)).map fun e => e.2.2).getD []

/-- The successor-recording loop of `add`: for each predecessor, ensure its
entry exists and append the node to its successor list. -/
def addSuccs (n : String) (preds : List String) (ys : NodeInfo) : NodeInfo :=
  preds.foldl (fun ys p => pushSucc (getNodeinfo ys p) p n) ys

/-- `TopologicalSorter.add(node, *predecessors)`: bump the node's predecessor
count, then record the node as successor of each predecessor. -/
def addNode (xs : NodeInfo) (n : String) (preds : List String) : NodeInfo :=
  addSuccs n preds (bumpNpred (getNodeinfo xs n) n preds.length)

/-- `TopologicalSorter(graph)`: `add` is called once per dict item. -/
def buildInfo (g : List (String × List String)) : NodeInfo :=
  g.foldl (fun xs e => addNode xs e.1 e.2) []

/-- One successor decrement inside `done`: decrement the successor's count and
append it to the ready list exactly when the count reaches zero. -/
def decStep (st : NodeInfo × List String) (s : String) : NodeInfo × List String :=
  let ys := bumpNpred st.1 s (-1)
  if lookupNpred ys s = 0 then (ys, st.2 ++ [s]) else (ys, st.2)

/-- `done(d)` during `static_order`: mark the node `_NODE_DONE`, then decrement
each successor's count, appending a successor to the ready list exactly when
its count reaches zero. -/
def doneNode (st : NodeInfo × List String) (d : String) : NodeInfo × List String :=
  let xs := setNpred st.1 d (-2)
  (lookupSuccs xs d).foldl decStep (xs, st.2)

/-- One batch of `static_order`: `get_ready()` marks every ready node
`_NODE_OUT`, then `done(*batch)` processes them in order, collecting the next
ready list. -/
def processBatch (xs : NodeInfo) (ready : List String) : NodeInfo × List String :=
  ready.foldl doneNode (ready.foldl (fun ys n => setNpred ys n (-1)) xs, [])

/-- The `while self.is_active()` loop of `static_order`, yielding batches in
order.  The fuel only bounds the number of batches; each nonempty batch emits
at least one node, so `#nodes + 1` iterations always suffice. -/
def kahnLoop : Nat → NodeInfo → List String → List String
  | 0, _, _ => []
  | fuel + 1, xs, ready =>
      if ready.isEmpty then []
      else
        let next := processBatch xs ready
        ready ++ kahnLoop fuel next.1 next.2

/-- `TopologicalSorter.static_order()`: prepare (initial ready list = nodes
with no predecessors, in insertion order), then yield batches.  `none` models
the `CycleError` raised by `prepare()`, which happens exactly when not every
node can be emitted. -/
def staticOrder (g : List (String × List String)) : Option (List String) :=
  let info := buildInfo g
  let ready := (info.filter fun e => decide (e.2.1 = 0)).map fun e => e.1
  let ord := kahnLoop (info.length + 1) info ready
  if ord.length = info.length then some ord else none

/-- The predecessor list of a node in the graph (the dict value of its key,
empty for non-keys). -/
def predsOf (g : List (String × List String)) (n : String) : List String :=
  ((g.find? fun e => decide (e.1 = n)).map fun e => e.2).getD []

/-- `a` occurs at a strictly earlier position than some occurrence of `b`. -/
def appearsBefore (l : List String) (a b : String) : Prop :=
  ∃ l1 l2, l = l1 ++ l2 ∧ a ∈ l1 ∧ b ∈ l2

/-! ### `FixFragmentOrder` -/

/-- Code-point comparison of strings, as Python compares `str`. -/
def charsLt : List Char → List Char → Bool
  | [], [] => false
  | [], _ :: _ => true
  | _ :: _, [] => false
  | a :: as, b :: bs =>
      if a.val < b.val then true else if b.val < a.val then false else charsLt as bs

def pyStrLe (a b : String) : Bool := a == b || charsLt a.data b.data

/-- `FixFragmentOrder._sorted_class_defs`: pre-sort by class name, feed
`{name: bases}` to `TopologicalSorter`, then stable-sort by position in
`static_order()`.  Python's `sorted` is a stable sort; generated modules have
distinct class names, for which every sorting algorithm agrees, and the
embedding uses insertion sort.  `none` models the `CycleError` escaping from
`static_order`. -/
def sorted_class_defs (class_defs : List Stmt) : Option (List Stmt) :=
  let ordered :=
    List.insertionSort (fun a b => pyStrLe (clsName a) (clsName b) = true) class_defs
  match staticOrder (dictItems (ordered.map fun c => (clsName c, clsBases c))) with
  | none => none
  | some ord =>
      some (List.insertionSort
        (fun a b => ord.indexOf (clsName a) ≤ ord.indexOf (clsName b)) ordered)

/-- `FixFragmentOrder.generate_fragments_module`: group statements by type,
raise unless the types are exactly `{ImportFrom, ClassDef, Expr}`, reorder the
class definitions and regenerate one `model_rebuild()` per class.  Grouping with
`groupby` + `defaultdict(deque)` concatenates the runs of each statement type
in order, i.e. a stable filter per type. -/
def generate_fragments_module (m : Module) : Except String Module :=
  let actual := (m.body.map stmtType).toFinset
  if actual ≠ ({.importFrom, .classDef, .exprStmt} : Finset StmtTy) then
    .error "Unexpected statements in fragments module."
  else
    let imports := m.body.filter fun s => decide (stmtType s = .importFrom)
    let class_defs := m.body.filter fun s => decide (stmtType s = .classDef)
    match sorted_class_defs class_defs with
    | none => .error "CycleError"
    | some ordered =>
        .ok ⟨imports ++ ordered ++ (ordered.map fun c => make_model_rebuild (clsName c))⟩

/-! ### Redundant subclass elimination -/

/-- Python `node.id.strip("'\x22")`: remove leading and trailing quote
characters. -/
def stripQuotes (s : String) : String :=
  let cs := s.data.dropWhile fun c => c == '\'' || c == '"'
  ⟨(cs.reverse.dropWhile fun c => c == '\'' || c == '"').reverse⟩

/-- `RedundantClassReplacer.visit_Name`: strip quotes (implicit forward
references), look the unquoted name up in the replacement mapping, and keep
the original id when absent. -/
def renameId (repl : List (String × String)) (s : String) : String :=
  match repl.find? fun kv => decide (kv.1 = stripQuotes s) with
  | some kv => kv.2
  | none => s

/-- `is_redundant_subclass_def`: a class definition with a single base whose
body is a single `pass`, or a single `typename__` annotated assignment with
the base not named `GQLResult`. -/
def is_redundant_subclass_def : Stmt → Bool
  | .classDef _ [b] [st] =>
      match st with
      | .passStmt => true
      | .annAssign (.name t) _ _ => decide (b ≠ "GQLResult") && decide (t = "typename__")
      | _ => false
  | _ => false

/-- `RedundantClassReplacer.visit_ClassDef` returns `None` (drops the class,
at any depth) when its name is a key of the replacement mapping. -/
def isDroppedClass (repl : List (String × String)) : Stmt → Bool
  | .classDef n _ _ => repl.any fun kv => decide (kv.1 = n)
  | _ => false

mutual
def rewriteExpr (repl : List (String × String)) : PExpr → PExpr
  | .name id => .name (renameId repl id)
  | .strLit s => .strLit s
  | .attr o a => .attr (rewriteExpr repl o) a
  | .subscript v i => .subscript (rewriteExpr repl v) (rewriteExpr repl i)
  | .call f args => .call (rewriteExpr repl f) (rewriteExprList repl args)

def rewriteExprList (repl : List (String × String)) : List PExpr → List PExpr
  | [] => []
  | e :: es => rewriteExpr repl e :: rewriteExprList repl es
end

mutual
/-- `RedundantClassReplacer.visit` on a kept statement (the class name itself
is an identifier field, not a `Name` node, so it is not rewritten). -/
def rewriteStmt (repl : List (String × String)) : Stmt → Stmt
  | .importFrom m ns => .importFrom m ns
  | .classDef n bs body => .classDef n (bs.map (renameId repl)) (rewriteStmtList repl body)
  | .exprStmt e => .exprStmt (rewriteExpr repl e)
  | .passStmt => .passStmt
  | .annAssign t a v =>
      .annAssign (rewriteExpr repl t) (rewriteExpr repl a)
        (match v with
         | none => none
         | some e => some (rewriteExpr repl e))

/-- `generic_visit` over a statement list: dropped class definitions are
removed, every other statement is rewritten recursively. -/
def rewriteStmtList (repl : List (String × String)) : List Stmt → List Stmt
  | [] => []
  | s :: rest =>
      if isDroppedClass repl s then rewriteStmtList repl rest
      else rewriteStmt repl s :: rewriteStmtList repl rest
end

/-- The replacement mapping built by `_replace_redundant_classes`: a dict from
each redundant top-level subclass name to its single parent class name. -/
def class_name_replacements (body : List Stmt) : List (String × String) :=
  dictItems (body.filterMap fun s =>
    match s with
    | .classDef n (b :: _) _ => if is_redundant_subclass_def s then some (n, b) else none
    | _ => none)

/-- `GraphQLCodegenPlugin._replace_redundant_classes`:
`RedundantClassReplacer(replacements).visit(module)`. -/
def replace_redundant_classes (m : Module) : Module :=
  ⟨rewriteStmtList (class_name_replacements m.body) m.body⟩

mutual
/-- Identifiers of all `ast.Name` nodes in an expression. -/
def exprNames : PExpr → List String
  | .name id => [id]
  | .strLit _ => []
  | .attr o _ => exprNames o
  | .subscript v i => exprNames v ++ exprNames i
  | .call f args => exprNames f ++ exprNamesList args

def exprNamesList : List PExpr → List String
  | [] => []
  | e :: es => exprNames e ++ exprNamesList es
end

mutual
/-- Identifiers of all `ast.Name` nodes referenced in a statement (the base
classes of a `ClassDef` are `Name` nodes). -/
def stmtNames : Stmt → List String
  | .importFrom _ _ => []
  | .classDef _ bs body => bs ++ stmtNamesList body
  | .exprStmt e => exprNames e
  | .passStmt => []
  | .annAssign t a v =>
      exprNames t ++ exprNames a ++ (match v with | none => [] | some e => exprNames e)

def stmtNamesList : List Stmt → List String
  | [] => []
  | s :: rest => stmtNames s ++ stmtNamesList rest
end

/-- Names of the top-level class definitions of a module body. -/
def topClassNames (body : List Stmt) : List String :=
  body.filterMap fun s =>
    match s with
    | .classDef n _ _ => some n
    | _ => none

/-- The body of a class definition statement (else empty). -/
def classBody : Stmt → List Stmt
  | .classDef _ _ b => b
  | _ => []

/-- Total number of pending decrements to node `n` from processing the nodes
`ds` (each `done(d)` decrements `n` once per occurrence in `d`'s successors). -/
def succSum (xs0 : NodeInfo) (ds : List String) (n : String) : Nat :=
  (ds.map fun d => (lookupSuccs xs0 d).count n).sum

/-- Invariant of `TopologicalSorter.__init__` after adding a prefix `g1` of the
graph items: node-info names are unique, predecessor counts equal the length of
the node's predecessor list, and each successor list counts exactly the
matching predecessor occurrences. -/
structure BuildInv (g1 : List (String × List String)) (xs : NodeInfo) : Prop where
  names_nodup : (xs.map Prod.fst).Nodup
  keys_mem : ∀ e ∈ g1, e.1 ∈ xs.map Prod.fst
  preds_mem : ∀ e ∈ g1, ∀ p ∈ e.2, p ∈ xs.map Prod.fst
  npred : ∀ n, lookupNpred xs n = ((predsOf g1 n).length : Int)
  succ_count : ∀ p n, (lookupSuccs xs p).count n = (predsOf g1 n).count p
  succ_mem : ∀ p, ∀ s ∈ lookupSuccs xs p, s ∈ xs.map Prod.fst

/-- Loop invariant of `static_order`: successors and names never change, the
ready list holds distinct live nodes of count zero, and every live node's
count equals the number of its predecessors not yet marked done (negative). -/
structure KahnInv (g : List (String × List String)) (xs : NodeInfo)
    (ready : List String) : Prop where
  names_eq : xs.map Prod.fst = (buildInfo g).map Prod.fst
  names_nodup : (xs.map Prod.fst).Nodup
  succs_eq : ∀ p, lookupSuccs xs p = lookupSuccs (buildInfo g) p
  succ_count : ∀ p n, (lookupSuccs xs p).count n = (predsOf g n).count p
  succ_mem : ∀ p, ∀ s ∈ lookupSuccs xs p, s ∈ xs.map Prod.fst
  ready_nodup : ready.Nodup
  ready_mem : ∀ r ∈ ready, r ∈ xs.map Prod.fst
  ready_zero : ∀ r ∈ ready, lookupNpred xs r = 0
  counts : ∀ n, 0 ≤ lookupNpred xs n →
      lookupNpred xs n = (((predsOf g n).filter fun p => 0 ≤ lookupNpred xs p).length : Int)

/-! ### Concrete inputs used by witnesses and counterexamples -/

/-- Example state for the tag-diff witness: saved tags `{a, b}`, current `{b, c}`. -/
def exTagSt : ArtifactCollectionState :=
  { name := "col", saved_name := "col", type := "dataset", saved_type := "dataset",
    description := none, tags := ["b", "c"], saved_tags := ["a", "b"], is_sequence := false }

/-- Example state with nothing staged: every staged field equals its snapshot. -/
def exNoopSt : ArtifactCollectionState :=
  { name := "c", saved_name := "c", type := "model", saved_type := "model",
    description := none, tags := ["t"], saved_tags := ["t"], is_sequence := true }

/-- Example state for the C3 witness: staged type change on a sequence. -/
def exMoveSt : ArtifactCollectionState :=
  { name := "m", saved_name := "m", type := "model", saved_type := "dataset",
    description := some "d", tags := [], saved_tags := ["x"], is_sequence := true }

/-- A files page showing the server-side collection is empty (no edges, no next
page), while the artifact object itself reports `file_count = 3` (as happens
when a `names` filter matches nothing). -/
def exEmptyFilesPage : FilesFragment := ⟨⟨false, none⟩, []⟩

def exV : String → String → Bool := fun _ _ => true

def exTagAfter : ArtifactCollectionState := { exTagSt with saved_tags := ["b", "c"] }

def exTagCalls : List GraphQLCall :=
  [.update_artifact_collection "col" none false,
   .create_tag_assignments ({"c"} : Finset String),
   .delete_tag_assignments ({"a"} : Finset String)]

def exMoveAfter : ArtifactCollectionState :=
  { exMoveSt with saved_type := "model", saved_tags := [] }

def exMoveCalls : List GraphQLCall :=
  [.update_artifact_collection "m" (some "d") true,
   .move_artifact_collection "model",
   .delete_tag_assignments ({"x"} : Finset String)]


/-- C5 counterexample module: the class named `GQLResult` is itself a redundant
subclass of `Foo`; eliminating it renames `C`'s base from `GQLResult` to
`Foo`, which makes `C` a redundant subclass only on the second pass. -/
def exRedM : Module :=
  ⟨[.classDef "Foo" ["Base"] [.annAssign (.name "x") (.name "int") none],
    .classDef "GQLResult" ["Foo"] [.passStmt],
    .classDef "C" ["GQLResult"] [.annAssign (.name "typename__") (.name "T") none]]⟩

/-- C5 witness module: two redundant subclasses, neither named `GQLResult`. -/
def exIdemM : Module :=
  ⟨[.classDef "B" ["A"] [.passStmt],
    .classDef "C" ["B"] [.annAssign (.name "typename__") (.name "T") none]]⟩

/-- C6 counterexample: the statement types are exactly
`{ImportFrom, ClassDef, Expr}`, but the single class definition `A(A)` is
cyclic, so `static_order()` raises `CycleError`. -/
def exCycleM : Module :=
  ⟨[.importFrom "m" ["y"], .classDef "A" ["A"] [.passStmt], .exprStmt (.name "e")]⟩

/-- C7 witness module: one redundant subclass `R(P)`; `K` references `R` both
as a base-class `Name` and as a quoted forward reference. -/
def exSubstM : Module :=
  ⟨[.classDef "R" ["P"] [.passStmt],
    .classDef "K" ["R"]
      [.annAssign (.name "x") (.subscript (.name "Optional") (.name "'R'")) none]]⟩

/-- C7 witness statement: a redundant subclass definition. -/
def exRedundantStmt : Stmt := .classDef "R" ["P"] [.passStmt]

/-- C2 counterexample class definitions: `A(C)`, `B`, `C`. -/
def exClsA : Stmt := .classDef "A" ["C"] [.passStmt]

def exClsB : Stmt := .classDef "B" [] [.passStmt]

def exClsC : Stmt := .classDef "C" [] [.passStmt]

/-- C2 witness class definitions: `Child(Parent)`, `Parent`. -/
def exChild : Stmt := .classDef "Child" ["Parent"] [.passStmt]

def exParent : Stmt := .classDef "Parent" [] [.passStmt]

/-! ## Theorems -/

/-- Characterization of a successful `ArtifactCollection.save()`: the update
call is always issued first, the move call exactly when the collection is a
sequence with a staged type change, the tag calls exactly when the respective
diffs are nonempty, and the snapshot fields are reset as the code does. -/
theorem save_ok_spec (validate_type : String → String → Bool)
    (st st' : ArtifactCollectionState) (calls : List GraphQLCall)
    (h : save validate_type st = .ok (st', calls)) :
    st' = { st with
            saved_name := st.name
            saved_type := (if st.is_sequence ∧ st.saved_type ≠ st.type then st.type
              else st.saved_type)
            saved_tags := st.tags } ∧
    calls = [GraphQLCall.update_artifact_collection st.name st.description st.is_sequence]
        ++ (if st.is_sequence ∧ st.saved_type ≠ st.type then
              [GraphQLCall.move_artifact_collection st.type] else [])
        ++ (if (st.tags.toFinset \ st.saved_tags.toFinset).Nonempty then
              [GraphQLCall.create_tag_assignments (st.tags.toFinset \ st.saved_tags.toFinset)]
            else [])
        ++ (if (st.saved_tags.toFinset \ st.tags.toFinset).Nonempty then
              [GraphQLCall.delete_tag_assignments (st.saved_tags.toFinset \ st.tags.toFinset)]
            else []) := by
  unfold save at h
  split at h
  · exact absurd h (by simp)
  split at h
  · exact absurd h (by simp)
  simp only [Except.ok.injEq, Prod.mk.injEq] at h
  obtain ⟨hst, hcalls⟩ := h
  by_cases hmov : st.is_sequence ∧ st.saved_type ≠ st.type
  · simp only [if_pos hmov] at hst hcalls ⊢
    exact ⟨hst.symm, hcalls.symm⟩
  · simp only [if_neg hmov] at hst hcalls ⊢
    exact ⟨hst.symm, hcalls.symm⟩

/-- C1: on every successful `save()`, the tag-add call carries exactly
(current minus saved) and the tag-delete call exactly (saved minus current);
the two sets together form the symmetric difference, and the saved snapshot is
reset to the current tags. -/
theorem save_tag_calls_symm_diff (validate_type : String → String → Bool)
    (st st' : ArtifactCollectionState) (calls : List GraphQLCall)
    (h : save validate_type st = .ok (st', calls)) :
    calls.filterMap added_tags? =
      (if (st.tags.toFinset \ st.saved_tags.toFinset).Nonempty then
        [st.tags.toFinset \ st.saved_tags.toFinset] else []) ∧
    calls.filterMap deleted_tags? =
      (if (st.saved_tags.toFinset \ st.tags.toFinset).Nonempty then
        [st.saved_tags.toFinset \ st.tags.toFinset] else []) ∧
    (st.tags.toFinset \ st.saved_tags.toFinset) ∪ (st.saved_tags.toFinset \ st.tags.toFinset)
      = symmDiff st.tags.toFinset st.saved_tags.toFinset ∧
    st'.saved_tags = st.tags := by
  obtain ⟨hst, hcalls⟩ := save_ok_spec validate_type st st' calls h
  subst hcalls
  refine ⟨?_, ?_, ?_, by rw [hst]⟩
  · by_cases hmov : st.is_sequence ∧ st.saved_type ≠ st.type <;>
      by_cases hadd : (st.tags.toFinset \ st.saved_tags.toFinset).Nonempty <;>
      by_cases hdel : (st.saved_tags.toFinset \ st.tags.toFinset).Nonempty <;>
      simp [hmov, hadd, hdel, added_tags?]
  · by_cases hmov : st.is_sequence ∧ st.saved_type ≠ st.type <;>
      by_cases hadd : (st.tags.toFinset \ st.saved_tags.toFinset).Nonempty <;>
      by_cases hdel : (st.saved_tags.toFinset \ st.tags.toFinset).Nonempty <;>
      simp [hmov, hadd, hdel, deleted_tags?]
  · rw [symmDiff_def, Finset.sup_eq_union]

/-- Witness for C1 at the spec's example: saved tags `{a, b}`, current
`{b, c}`; `save` adds `{c}`, deletes `{a}` and resets the snapshot. -/
theorem save_tag_calls_symm_diff_witness :
    (save exV exTagSt = .ok (exTagAfter, exTagCalls)) ∧
    (exTagCalls.filterMap added_tags? =
      (if (exTagSt.tags.toFinset \ exTagSt.saved_tags.toFinset).Nonempty then
        [exTagSt.tags.toFinset \ exTagSt.saved_tags.toFinset] else []) ∧
    exTagCalls.filterMap deleted_tags? =
      (if (exTagSt.saved_tags.toFinset \ exTagSt.tags.toFinset).Nonempty then
        [exTagSt.saved_tags.toFinset \ exTagSt.tags.toFinset] else []) ∧
    (exTagSt.tags.toFinset \ exTagSt.saved_tags.toFinset)
        ∪ (exTagSt.saved_tags.toFinset \ exTagSt.tags.toFinset)
      = symmDiff exTagSt.tags.toFinset exTagSt.saved_tags.toFinset ∧
    exTagAfter.saved_tags = exTagSt.tags) :=
  ⟨by decide, save_tag_calls_symm_diff exV exTagSt exTagAfter exTagCalls (by decide)⟩

/-- C3 counterexample: with nothing staged (every staged field equal to its
snapshot), `save()` still issues the update call — a call is not issued only
when the corresponding staged value differs. -/
theorem save_update_call_unconditional :
    save exV exNoopSt = .ok (exNoopSt, [.update_artifact_collection "c" none true]) ∧
    exNoopSt.name = exNoopSt.saved_name ∧
    exNoopSt.type = exNoopSt.saved_type ∧
    exNoopSt.tags = exNoopSt.saved_tags ∧
    ([GraphQLCall.update_artifact_collection "c" none true] ≠ []) := by
  refine ⟨by decide, rfl, rfl, rfl, by simp⟩

/-- C3 (amended): on success, the update call (carrying current name and
description) is always issued; the move call is issued iff the collection is a
sequence with a staged type change; tag add/delete calls iff the respective
diffs are nonempty; and the snapshot is reset — except `saved_type`, which is
only updated when the move call was issued. -/
theorem save_reconciliation (validate_type : String → String → Bool)
    (st st' : ArtifactCollectionState) (calls : List GraphQLCall)
    (h : save validate_type st = .ok (st', calls)) :
    calls.head? = some (.update_artifact_collection st.name st.description st.is_sequence) ∧
    ((∃ t, GraphQLCall.move_artifact_collection t ∈ calls) ↔
      (st.is_sequence ∧ st.saved_type ≠ st.type)) ∧
    ((∃ s, GraphQLCall.create_tag_assignments s ∈ calls) ↔
      (st.tags.toFinset \ st.saved_tags.toFinset).Nonempty) ∧
    ((∃ s, GraphQLCall.delete_tag_assignments s ∈ calls) ↔
      (st.saved_tags.toFinset \ st.tags.toFinset).Nonempty) ∧
    st' = { st with
            saved_name := st.name
            saved_type := (if st.is_sequence ∧ st.saved_type ≠ st.type then st.type
              else st.saved_type)
            saved_tags := st.tags } := by
  obtain ⟨hst, hcalls⟩ := save_ok_spec validate_type st st' calls h
  subst hcalls
  refine ⟨?_, ?_, ?_, ?_, hst⟩ <;>
    by_cases hmov : st.is_sequence ∧ st.saved_type ≠ st.type <;>
    by_cases hadd : (st.tags.toFinset \ st.saved_tags.toFinset).Nonempty <;>
    by_cases hdel : (st.saved_tags.toFinset \ st.tags.toFinset).Nonempty <;>
    simp [hmov, hadd, hdel]

/-- Witness for C3 (amended): a sequence collection with a staged type change
and a staged tag removal issues update, move, and delete calls. -/
theorem save_reconciliation_witness :
    (save exV exMoveSt = .ok (exMoveAfter, exMoveCalls)) ∧
    (exMoveCalls.head? =
      some (.update_artifact_collection exMoveSt.name exMoveSt.description exMoveSt.is_sequence) ∧
    ((∃ t, GraphQLCall.move_artifact_collection t ∈ exMoveCalls) ↔
      (exMoveSt.is_sequence ∧ exMoveSt.saved_type ≠ exMoveSt.type)) ∧
    ((∃ s, GraphQLCall.create_tag_assignments s ∈ exMoveCalls) ↔
      (exMoveSt.tags.toFinset \ exMoveSt.saved_tags.toFinset).Nonempty) ∧
    ((∃ s, GraphQLCall.delete_tag_assignments s ∈ exMoveCalls) ↔
      (exMoveSt.saved_tags.toFinset \ exMoveSt.tags.toFinset).Nonempty) ∧
    exMoveAfter = { exMoveSt with
            saved_name := exMoveSt.name
            saved_type := (if exMoveSt.is_sequence ∧ exMoveSt.saved_type ≠ exMoveSt.type then
              exMoveSt.type else exMoveSt.saved_type)
            saved_tags := exMoveSt.tags }) :=
  ⟨by decide, save_reconciliation exV exMoveSt exMoveAfter exMoveCalls (by decide)⟩

/-- C4: for every paginator in the module, `cursor` is `None` before any page
is fetched and otherwise the last response's `end_cursor`; `more` is `True`
before any fetch and thereafter equals the last response's `has_next_page`. -/
theorem paginator_more_cursor_protocol :
    (ArtifactTypes.cursor none = none ∧ ArtifactTypes.more none = true ∧
      (∀ r, ArtifactTypes.cursor (some r) = r.page_info.end_cursor) ∧
      (∀ r, ArtifactTypes.more (some r) = r.page_info.has_next_page)) ∧
    (ArtifactCollections.cursor none = none ∧ ArtifactCollections.more none = true ∧
      (∀ r, ArtifactCollections.cursor (some r) = r.page_info.end_cursor) ∧
      (∀ r, ArtifactCollections.more (some r) = r.page_info.has_next_page)) ∧
    (Artifacts.cursor none = none ∧ Artifacts.more none = true ∧
      (∀ r, Artifacts.cursor (some r) = r.page_info.end_cursor) ∧
      (∀ r, Artifacts.more (some r) = r.page_info.has_next_page)) ∧
    (RunArtifacts.cursor none = none ∧ RunArtifacts.more none = true ∧
      (∀ r, RunArtifacts.cursor (some r) = r.page_info.end_cursor) ∧
      (∀ r, RunArtifacts.more (some r) = r.page_info.has_next_page)) ∧
    (ArtifactFiles.cursor none = none ∧ ArtifactFiles.more none = true ∧
      (∀ r, ArtifactFiles.cursor (some r) = r.page_info.end_cursor) ∧
      (∀ r, ArtifactFiles.more (some r) = r.page_info.has_next_page)) :=
  ⟨⟨rfl, rfl, fun _ => rfl, fun _ => rfl⟩, ⟨rfl, rfl, fun _ => rfl, fun _ => rfl⟩,
   ⟨rfl, rfl, fun _ => rfl, fun _ => rfl⟩, ⟨rfl, rfl, fun _ => rfl, fun _ => rfl⟩,
   ⟨rfl, rfl, fun _ => rfl, fun _ => rfl⟩⟩

/-- C8 counterexample: `ArtifactFiles._length` loads the page but returns
`artifact.file_count` (here 3) even when the fetched page shows the paginated
collection is empty (0 files, no next page) — not the server-reported total
count of the paginated collection. -/
theorem files_length_not_collection_total :
    ArtifactFiles.length_ 3 exEmptyFilesPage none = (some exEmptyFilesPage, 3) ∧
    exEmptyFilesPage.edges.length = 0 ∧
    exEmptyFilesPage.page_info.has_next_page = false ∧
    ((3 : Int) ≠ 0) :=
  ⟨rfl, rfl, rfl, by decide⟩

/-- C8 (amended): accessing the length with no page cached first loads a page;
`ArtifactCollections`, `Artifacts` and `RunArtifacts` then return the cached
response's server-reported `total_count`, while `ArtifactFiles` returns the
artifact object's `file_count` regardless of the fetched page. -/
theorem sized_paginator_length_lazy :
    (∀ f, ArtifactCollections.length_ f none = (some f, f.total_count)) ∧
    (∀ f r, ArtifactCollections.length_ f (some r) = (some r, r.total_count)) ∧
    (∀ f, Artifacts.length_ f none = (some f, f.total_count)) ∧
    (∀ f r, Artifacts.length_ f (some r) = (some r, r.total_count)) ∧
    (∀ f, RunArtifacts.length_ f none = (some f, f.total_count)) ∧
    (∀ f r, RunArtifacts.length_ f (some r) = (some r, r.total_count)) ∧
    (∀ fc f, ArtifactFiles.length_ fc f none = (some f, fc)) ∧
    (∀ fc f r, ArtifactFiles.length_ fc f (some r) = (some r, fc)) :=
  ⟨fun _ => rfl, fun _ _ => rfl, fun _ => rfl, fun _ _ => rfl,
   fun _ => rfl, fun _ _ => rfl, fun _ _ => rfl, fun _ _ _ => rfl⟩

/-- C9: `Artifacts.convert_objects` applies the tag filter client-side: an
artifact is returned iff it comes from an edge with a non-null node and its
tags contain every requested tag (vacuously true when no tags were requested). -/
theorem artifacts_convert_objects_tag_filter (self_tags : List String)
    (entity project collection_name : String) (r : ArtifactsFragment) (a : Artifact) :
    a ∈ Artifacts.convert_objects self_tags entity project collection_name (some r) ↔
      ((∃ edge ∈ r.edges, ∃ node, edge.node = some node ∧
        a = Artifact.from_attrs entity project (collection_name ++ ":" ++ edge.version) node) ∧
      ∀ t ∈ self_tags, t ∈ a.tags) := by
  unfold Artifacts.convert_objects
  by_cases hreq : self_tags.toFinset.Nonempty
  · simp only [hreq, if_true, List.mem_filter, List.mem_filterMap, Option.map_eq_some',
      decide_eq_true_eq, Finset.subset_iff, List.mem_toFinset]
    aesop
  · have hnil : self_tags = [] := by
      rw [Finset.not_nonempty_iff_eq_empty] at hreq
      simpa using hreq
    subst hnil
    simp only [List.toFinset_nil, Finset.not_nonempty_empty, if_false, List.mem_filterMap,
      Option.map_eq_some', List.not_mem_nil, false_implies, implies_true, and_true]
    aesop

/-- C10: for every paginator in the module, `convert_objects` returns the
empty list when no page has been fetched (`last_response is None`). -/
theorem convert_objects_before_fetch_empty :
    (∀ entity project, ArtifactTypes.convert_objects entity project none = []) ∧
    (∀ entity project type_name,
      ArtifactCollections.convert_objects entity project type_name none = []) ∧
    (∀ self_tags entity project collection_name,
      Artifacts.convert_objects self_tags entity project collection_name none = []) ∧
    (RunArtifacts.convert_objects none = []) ∧
    (ArtifactFiles.convert_objects none = []) :=
  ⟨fun _ _ => rfl, fun _ _ _ => rfl, fun _ _ _ _ => rfl, rfl, rfl⟩

/-! ### Helper lemmas: dict keys, renaming, rewriting -/

theorem dictInsert_keys {β : Type} (acc : List (String × β)) (kv : String × β)
    (a : String) :
    a ∈ (dictInsert acc kv).map Prod.fst ↔ a ∈ acc.map Prod.fst ∨ a = kv.1 := by
  unfold dictInsert
  by_cases hmem : (acc.any fun e => decide (e.1 = kv.1)) = true
  · rw [if_pos hmem]
    have hkeys : (acc.map fun e => if e.1 = kv.1 then (e.1, kv.2) else e).map Prod.fst
        = acc.map Prod.fst := by
      rw [List.map_map]
      refine List.map_congr_left fun e _ => ?_
      by_cases he : e.1 = kv.1 <;> simp [he]
    rw [hkeys]
    constructor
    · exact fun h => Or.inl h
    · rintro (h | rfl)
      · exact h
      · simp only [List.any_eq_true, decide_eq_true_eq] at hmem
        obtain ⟨e, he, heq⟩ := hmem
        exact List.mem_map.mpr ⟨e, he, heq⟩
  · rw [if_neg hmem]
    simp

theorem dictItems_keys_aux {β : Type} (xs : List (String × β)) (acc : List (String × β))
    (a : String) :
    a ∈ (xs.foldl dictInsert acc).map Prod.fst ↔
      a ∈ acc.map Prod.fst ∨ a ∈ xs.map Prod.fst := by
  induction xs generalizing acc with
  | nil => simp
  | cons kv rest ih =>
      rw [List.foldl_cons, ih, dictInsert_keys]
      simp only [List.map_cons, List.mem_cons]
      tauto

theorem dictItems_keys {β : Type} (xs : List (String × β)) (a : String) :
    a ∈ (dictItems xs).map Prod.fst ↔ a ∈ xs.map Prod.fst := by
  unfold dictItems
  rw [dictItems_keys_aux]
  simp

theorem renameId_not_key (M : List (String × String)) (x : String)
    (h : stripQuotes x ∉ M.map Prod.fst) : renameId M x = x := by
  unfold renameId
  cases hf : M.find? fun kv => decide (kv.1 = stripQuotes x) with
  | none => rfl
  | some kv =>
      exfalso
      have hkv := List.mem_of_find?_eq_some hf
      have hp := List.find?_some hf
      simp only [decide_eq_true_eq] at hp
      exact h (List.mem_map.mpr ⟨kv, hkv, hp⟩)

theorem renameId_eq_or_mem_values (M : List (String × String)) (x : String) :
    renameId M x = x ∨ renameId M x ∈ M.map Prod.snd := by
  unfold renameId
  cases hf : M.find? fun kv => decide (kv.1 = stripQuotes x) with
  | none => exact Or.inl rfl
  | some kv => exact Or.inr (List.mem_map.mpr ⟨kv, List.mem_of_find?_eq_some hf, rfl⟩)

theorem renameId_nil (x : String) : renameId [] x = x := rfl

theorem isDroppedClass_nil (s : Stmt) : isDroppedClass [] s = false := by
  cases s <;> rfl

theorem rewriteExpr_nil_all :
    (∀ e, rewriteExpr [] e = e) ∧ ∀ es, rewriteExprList [] es = es := by
  constructor
  · intro e
    refine rewriteExpr.induct [] (fun e => rewriteExpr [] e = e)
      (fun es => rewriteExprList [] es = es) ?_ ?_ ?_ ?_ ?_ ?_ ?_ e
    · intro id; simp [rewriteExpr, renameId]
    · intro s; rfl
    · intro o a ih; simp [rewriteExpr, ih]
    · intro v i ih1 ih2; simp [rewriteExpr, ih1, ih2]
    · intro f args ih1 ih2; simp [rewriteExpr, ih1, ih2]
    · rfl
    · intro e es ih1 ih2; simp [rewriteExprList, ih1, ih2]
  · intro es
    refine rewriteExprList.induct [] (fun e => rewriteExpr [] e = e)
      (fun es => rewriteExprList [] es = es) ?_ ?_ ?_ ?_ ?_ ?_ ?_ es
    · intro id; simp [rewriteExpr, renameId]
    · intro s; rfl
    · intro o a ih; simp [rewriteExpr, ih]
    · intro v i ih1 ih2; simp [rewriteExpr, ih1, ih2]
    · intro f args ih1 ih2; simp [rewriteExpr, ih1, ih2]
    · rfl
    · intro e es ih1 ih2; simp [rewriteExprList, ih1, ih2]

theorem rewriteStmt_nil_all :
    (∀ s, rewriteStmt [] s = s) ∧ ∀ l, rewriteStmtList [] l = l := by
  have hexpr := rewriteExpr_nil_all.1
  constructor
  · intro s
    refine rewriteStmt.induct [] (fun s => rewriteStmt [] s = s)
      (fun l => rewriteStmtList [] l = l) ?_ ?_ ?_ ?_ ?_ ?_ ?_ ?_ s
    · intro m ns; rfl
    · intro n bs body ih
      simp [rewriteStmt, ih, funext renameId_nil]
    · intro e; simp [rewriteStmt, hexpr]
    · rfl
    · intro t a v
      cases v <;> simp [rewriteStmt, hexpr]
    · rfl
    · intro s rest hdrop ih
      rw [isDroppedClass_nil] at hdrop
      exact absurd hdrop (by simp)
    · intro s rest hkept ih1 ih2
      simp [rewriteStmtList, isDroppedClass_nil, ih1, ih2]
  · intro l
    refine rewriteStmtList.induct [] (fun s => rewriteStmt [] s = s)
      (fun l => rewriteStmtList [] l = l) ?_ ?_ ?_ ?_ ?_ ?_ ?_ ?_ l
    · intro m ns; rfl
    · intro n bs body ih
      simp [rewriteStmt, ih, funext renameId_nil]
    · intro e; simp [rewriteStmt, hexpr]
    · rfl
    · intro t a v
      cases v <;> simp [rewriteStmt, hexpr]
    · rfl
    · intro s rest hdrop ih
      rw [isDroppedClass_nil] at hdrop
      exact absurd hdrop (by simp)
    · intro s rest hkept ih1 ih2
      simp [rewriteStmtList, isDroppedClass_nil, ih1, ih2]

theorem rewriteStmtList_eq_map (M : List (String × String)) (l : List Stmt)
    (h : ∀ t ∈ l, isDroppedClass M t = false) :
    rewriteStmtList M l = l.map (rewriteStmt M) := by
  induction l with
  | nil => rfl
  | cons s rest ih =>
      have hs := h s (List.mem_cons_self s rest)
      simp only [rewriteStmtList, hs, Bool.false_eq_true, if_false, List.map_cons]
      rw [ih fun t ht => h t (List.mem_cons_of_mem s ht)]

theorem mem_rewriteStmtList (M : List (String × String)) (l : List Stmt) (t : Stmt) :
    t ∈ rewriteStmtList M l ↔
      ∃ s ∈ l, isDroppedClass M s = false ∧ t = rewriteStmt M s := by
  induction l with
  | nil => simp [rewriteStmtList]
  | cons s rest ih =>
      by_cases hd : isDroppedClass M s = true
      · rw [show rewriteStmtList M (s :: rest) = rewriteStmtList M rest from by
          simp [rewriteStmtList, hd]]
        rw [ih]
        constructor
        · rintro ⟨u, hu, hk, ht⟩
          exact ⟨u, List.mem_cons_of_mem s hu, hk, ht⟩
        · rintro ⟨u, hu, hk, ht⟩
          rcases List.mem_cons.mp hu with rfl | hu
          · rw [hd] at hk; exact absurd hk (by simp)
          · exact ⟨u, hu, hk, ht⟩
      · rw [show rewriteStmtList M (s :: rest) = rewriteStmt M s :: rewriteStmtList M rest
          from by simp [rewriteStmtList, hd]]
        constructor
        · intro hmem
          rcases List.mem_cons.mp hmem with rfl | hmem2
          · exact ⟨s, List.mem_cons_self s rest, by simpa using hd, rfl⟩
          · obtain ⟨u, hu, hk, ht⟩ := ih.mp hmem2
            exact ⟨u, List.mem_cons_of_mem s hu, hk, ht⟩
        · rintro ⟨u, hu, hk, ht⟩
          rcases List.mem_cons.mp hu with rfl | hu2
          · exact ht ▸ List.mem_cons_self _ _
          · exact List.mem_cons_of_mem _ (ih.mpr ⟨u, hu2, hk, ht⟩)

theorem rewriteStmt_not_redundant (M : List (String × String))
    (h1 : "GQLResult" ∉ M.map Prod.fst) (h2 : "typename__" ∉ M.map Prod.snd)
    (s : Stmt) (hnred : is_redundant_subclass_def s = false)
    (hbody : ∀ t ∈ classBody s, isDroppedClass M t = false) :
    is_redundant_subclass_def (rewriteStmt M s) = false := by
  cases s with
  | importFrom mn ns => simp [rewriteStmt, is_redundant_subclass_def]
  | exprStmt e => simp [rewriteStmt, is_redundant_subclass_def]
  | passStmt => simp [rewriteStmt, is_redundant_subclass_def]
  | annAssign t a v => cases v <;> simp [rewriteStmt, is_redundant_subclass_def]
  | classDef n bs body =>
      have hrw : rewriteStmt M (.classDef n bs body)
          = .classDef n (bs.map (renameId M)) (body.map (rewriteStmt M)) := by
        rw [show rewriteStmt M (.classDef n bs body)
            = .classDef n (bs.map (renameId M)) (rewriteStmtList M body) from rfl,
          rewriteStmtList_eq_map M body hbody]
      rw [hrw]
      rcases bs with _ | ⟨b, bs'⟩
      · simp [is_redundant_subclass_def]
      rcases bs' with _ | ⟨b2, bs''⟩
      · rcases body with _ | ⟨st, body'⟩
        · simp [is_redundant_subclass_def]
        rcases body' with _ | ⟨st2, body''⟩
        · cases st with
          | passStmt => simp [is_redundant_subclass_def] at hnred
          | annAssign t a v =>
              cases t with
              | name tn =>
                  have hb_or : b = "GQLResult" ∨ tn ≠ "typename__" := by
                    simp only [is_redundant_subclass_def, Bool.and_eq_false_iff,
                      decide_eq_false_iff_not, not_not] at hnred
                    tauto
                  have hgoal : ∀ a2 v2, is_redundant_subclass_def
                      (.classDef n [renameId M b]
                        [.annAssign (.name (renameId M tn)) a2 v2]) = false := by
                    intro a2 v2
                    simp only [is_redundant_subclass_def, Bool.and_eq_false_iff,
                      decide_eq_false_iff_not, not_not]
                    rcases hb_or with hb | htn
                    · left
                      rw [hb, renameId_not_key M "GQLResult"
                        (by rw [show stripQuotes "GQLResult" = "GQLResult" from rfl]; exact h1)]
                    · right
                      intro heq
                      rcases renameId_eq_or_mem_values M tn with hsame | hval
                      · rw [hsame] at heq; exact htn heq
                      · rw [heq] at hval; exact absurd hval h2
                  simp only [List.map_cons, List.map_nil]
                  cases v with
                  | none => exact hgoal _ _
                  | some e => exact hgoal _ _
              | strLit ss => simp [rewriteStmt, rewriteExpr, is_redundant_subclass_def]
              | attr o aa => simp [rewriteStmt, rewriteExpr, is_redundant_subclass_def]
              | subscript vv ii => simp [rewriteStmt, rewriteExpr, is_redundant_subclass_def]
              | call f args => simp [rewriteStmt, rewriteExpr, is_redundant_subclass_def]
          | importFrom mn ns => simp [rewriteStmt, is_redundant_subclass_def]
          | exprStmt e => simp [rewriteStmt, is_redundant_subclass_def]
          | classDef n2 bs2 body2 => simp [rewriteStmt, is_redundant_subclass_def]
        · simp [is_redundant_subclass_def]
      · simp [is_redundant_subclass_def]

theorem class_name_replacements_nil_of_no_redundant (body : List Stmt)
    (h : ∀ s ∈ body, is_redundant_subclass_def s = false) :
    class_name_replacements body = [] := by
  unfold class_name_replacements
  have hfm : (body.filterMap fun s =>
      match s with
      | .classDef n (b :: _) _ => if is_redundant_subclass_def s then some (n, b) else none
      | _ => none) = [] := by
    rw [List.filterMap_eq_nil_iff]
    intro s hs
    rcases s with _ | ⟨n, bs, sb⟩ | _ | _ | _
    · rfl
    · rcases bs with _ | ⟨b, bs'⟩
      · rfl
      · simp [h _ hs]
    · rfl
    · rfl
    · rfl
  rw [hfm]
  rfl

theorem isDroppedClass_of_redundant (body : List Stmt) (s : Stmt) (hs : s ∈ body)
    (hred : is_redundant_subclass_def s = true) :
    isDroppedClass (class_name_replacements body) s = true := by
  rcases s with _ | ⟨n, bs, sb⟩ | _ | _ | _
  · simp [is_redundant_subclass_def] at hred
  · rcases bs with _ | ⟨b, bs'⟩
    · simp [is_redundant_subclass_def] at hred
    · have hmem : (n, b) ∈ (body.filterMap fun s =>
          match s with
          | .classDef n (b :: _) _ => if is_redundant_subclass_def s then some (n, b) else none
          | _ => none) := by
        refine List.mem_filterMap.mpr ⟨.classDef n (b :: bs') sb, hs, ?_⟩
        simp [hred]
      have hkey : n ∈ (class_name_replacements body).map Prod.fst := by
        unfold class_name_replacements
        rw [dictItems_keys]
        exact List.mem_map.mpr ⟨(n, b), hmem, rfl⟩
      obtain ⟨kv, hkv, hfst⟩ := List.mem_map.mp hkey
      simp only [isDroppedClass, List.any_eq_true, decide_eq_true_eq]
      exact ⟨kv, hkv, hfst⟩
  · simp [is_redundant_subclass_def] at hred
  · simp [is_redundant_subclass_def] at hred
  · simp [is_redundant_subclass_def] at hred

/-- C5 counterexample: eliminating the redundant subclass named `GQLResult`
renames `C`'s base from `GQLResult` to `Foo`, so `C` becomes redundant only on
the second pass: applying `_replace_redundant_classes` twice removes one more
class than applying it once. -/
theorem replace_redundant_classes_not_idempotent :
    (replace_redundant_classes exRedM).body.length = 2 ∧
    (replace_redundant_classes (replace_redundant_classes exRedM)).body.length = 1 ∧
    replace_redundant_classes (replace_redundant_classes exRedM)
      ≠ replace_redundant_classes exRedM := by
  refine ⟨rfl, rfl, fun h => ?_⟩
  exact absurd (congrArg (fun mm : Module => mm.body.length) h) (by decide)

/-- C5 (amended): `_replace_redundant_classes` is idempotent for modules in
which no redundant subclass is named `GQLResult`, no redundant subclass's
parent is named `typename__`, and no top-level class body directly contains a
class definition named after a redundant subclass — on such modules the first
pass leaves no redundant class behind, so the second pass is the identity. -/
theorem replace_redundant_classes_idempotent (m : Module)
    (h1 : "GQLResult" ∉ (class_name_replacements m.body).map Prod.fst)
    (h2 : "typename__" ∉ (class_name_replacements m.body).map Prod.snd)
    (h3 : ∀ s ∈ m.body, ∀ t ∈ classBody s,
      isDroppedClass (class_name_replacements m.body) t = false) :
    replace_redundant_classes (replace_redundant_classes m)
      = replace_redundant_classes m := by
  have hout : ∀ u ∈ (replace_redundant_classes m).body,
      is_redundant_subclass_def u = false := by
    intro u hu
    obtain ⟨s, hs, hkept, rfl⟩ := (mem_rewriteStmtList _ _ _).mp hu
    have hnred : is_redundant_subclass_def s = false := by
      by_contra hcon
      rw [Bool.not_eq_false] at hcon
      rw [isDroppedClass_of_redundant m.body s hs hcon] at hkept
      exact absurd hkept (by simp)
    exact rewriteStmt_not_redundant _ h1 h2 s hnred (h3 s hs)
  have hM2 : class_name_replacements (replace_redundant_classes m).body = [] :=
    class_name_replacements_nil_of_no_redundant _ hout
  show Module.mk (rewriteStmtList (class_name_replacements (replace_redundant_classes m).body)
      (replace_redundant_classes m).body) = replace_redundant_classes m
  rw [hM2, rewriteStmt_nil_all.2]

/-- Witness for C5 (amended): a module with two chained redundant subclasses
satisfies the hypotheses, and the replacement is idempotent on it. -/
theorem replace_redundant_classes_idempotent_witness :
    ("GQLResult" ∉ (class_name_replacements exIdemM.body).map Prod.fst) ∧
    ("typename__" ∉ (class_name_replacements exIdemM.body).map Prod.snd) ∧
    (∀ s ∈ exIdemM.body, ∀ t ∈ classBody s,
      isDroppedClass (class_name_replacements exIdemM.body) t = false) ∧
    replace_redundant_classes (replace_redundant_classes exIdemM)
      = replace_redundant_classes exIdemM :=
  ⟨by decide, by decide, by decide,
    replace_redundant_classes_idempotent exIdemM (by decide) (by decide) (by decide)⟩

theorem stripQuotes_renameId_not_key (M : List (String × String))
    (hvals : ∀ kv ∈ M, stripQuotes kv.2 ∉ M.map Prod.fst) (x : String) :
    stripQuotes (renameId M x) ∉ M.map Prod.fst := by
  rcases hf : M.find? fun kv => decide (kv.1 = stripQuotes x) with _ | kv
  · rw [show renameId M x = x from by unfold renameId; rw [hf]]
    intro hmem
    obtain ⟨kv, hkv, hfst⟩ := List.mem_map.mp hmem
    have hne := List.find?_eq_none.mp hf kv hkv
    simp only [decide_eq_true_eq] at hne
    exact hne hfst
  · rw [show renameId M x = kv.2 from by unfold renameId; rw [hf]]
    exact hvals kv (List.mem_of_find?_eq_some hf)

theorem exprNamesList_rewrite (M : List (String × String)) (es : List PExpr) :
    ∀ x ∈ exprNamesList (rewriteExprList M es), ∃ y, x = renameId M y := by
  refine rewriteExprList.induct M
    (fun e => ∀ x ∈ exprNames (rewriteExpr M e), ∃ y, x = renameId M y)
    (fun es => ∀ x ∈ exprNamesList (rewriteExprList M es), ∃ y, x = renameId M y)
    ?_ ?_ ?_ ?_ ?_ ?_ ?_ es
  · intro id x hx
    simp only [rewriteExpr, exprNames, List.mem_singleton] at hx
    exact ⟨id, hx⟩
  · intro s x hx
    simp [rewriteExpr, exprNames] at hx
  · intro o a ih x hx
    simp only [rewriteExpr, exprNames] at hx
    exact ih x hx
  · intro v i ih1 ih2 x hx
    simp only [rewriteExpr, exprNames, List.mem_append] at hx
    rcases hx with hx | hx
    · exact ih1 x hx
    · exact ih2 x hx
  · intro f args ih1 ih2 x hx
    simp only [rewriteExpr, exprNames, List.mem_append] at hx
    rcases hx with hx | hx
    · exact ih1 x hx
    · exact ih2 x hx
  · intro x hx
    simp [rewriteExprList, exprNamesList] at hx
  · intro e es ih1 ih2 x hx
    simp only [rewriteExprList, exprNamesList, List.mem_append] at hx
    rcases hx with hx | hx
    · exact ih1 x hx
    · exact ih2 x hx

theorem exprNames_rewrite (M : List (String × String)) (e : PExpr) (x : String)
    (hx : x ∈ exprNames (rewriteExpr M e)) : ∃ y, x = renameId M y := by
  apply exprNamesList_rewrite M [e] x
  simp only [rewriteExprList, exprNamesList, List.append_nil]
  exact hx

theorem stmtNamesList_rewrite (M : List (String × String)) (l : List Stmt) :
    ∀ x ∈ stmtNamesList (rewriteStmtList M l), ∃ y, x = renameId M y := by
  refine rewriteStmtList.induct M
    (fun s => ∀ x ∈ stmtNames (rewriteStmt M s), ∃ y, x = renameId M y)
    (fun l => ∀ x ∈ stmtNamesList (rewriteStmtList M l), ∃ y, x = renameId M y)
    ?_ ?_ ?_ ?_ ?_ ?_ ?_ ?_ l
  · intro mn ns x hx
    simp [rewriteStmt, stmtNames] at hx
  · intro n bs body ih x hx
    simp only [rewriteStmt, stmtNames, List.mem_append] at hx
    rcases hx with hx | hx
    · obtain ⟨b, hb, rfl⟩ := List.mem_map.mp hx
      exact ⟨b, rfl⟩
    · exact ih x hx
  · intro e x hx
    simp only [rewriteStmt, stmtNames] at hx
    exact exprNames_rewrite M e x hx
  · intro x hx
    simp [rewriteStmt, stmtNames] at hx
  · intro t a v x hx
    cases v with
    | none =>
        simp only [rewriteStmt, stmtNames, List.append_nil, List.mem_append] at hx
        rcases hx with hx | hx
        · exact exprNames_rewrite M t x hx
        · exact exprNames_rewrite M a x hx
    | some e =>
        simp only [rewriteStmt, stmtNames] at hx
        rw [List.mem_append, List.mem_append] at hx
        rcases hx with (hx | hx) | hx
        · exact exprNames_rewrite M t x hx
        · exact exprNames_rewrite M a x hx
        · exact exprNames_rewrite M e x hx
  · intro x hx
    simp [rewriteStmtList, stmtNamesList] at hx
  · intro s rest hdrop ih x hx
    rw [show rewriteStmtList M (s :: rest) = rewriteStmtList M rest from by
      simp [rewriteStmtList, hdrop]] at hx
    exact ih x hx
  · intro s rest hkept ih1 ih2 x hx
    rw [show rewriteStmtList M (s :: rest) = rewriteStmt M s :: rewriteStmtList M rest from by
      simp [rewriteStmtList, hkept]] at hx
    simp only [stmtNamesList, List.mem_append] at hx
    rcases hx with hx | hx
    · exact ih1 x hx
    · exact ih2 x hx

theorem topClassNames_rewrite (M : List (String × String)) (l : List Stmt) :
    topClassNames (rewriteStmtList M l)
      = (topClassNames l).filter fun n => !(M.any fun kv => decide (kv.1 = n)) := by
  induction l with
  | nil => rfl
  | cons s rest ih =>
      cases s with
      | classDef n bs body =>
          by_cases hd : (M.any fun kv => decide (kv.1 = n)) = true
          · rw [show rewriteStmtList M (.classDef n bs body :: rest)
                = rewriteStmtList M rest from by simp [rewriteStmtList, isDroppedClass, hd]]
            rw [ih, show topClassNames (.classDef n bs body :: rest)
                = n :: topClassNames rest from rfl, List.filter_cons]
            simp [hd]
          · rw [show rewriteStmtList M (.classDef n bs body :: rest)
                = rewriteStmt M (.classDef n bs body) :: rewriteStmtList M rest from by
              simp [rewriteStmtList, isDroppedClass, hd]]
            rw [show topClassNames
                  (rewriteStmt M (.classDef n bs body) :: rewriteStmtList M rest)
                = n :: topClassNames (rewriteStmtList M rest) from rfl]
            rw [ih, show topClassNames (.classDef n bs body :: rest)
                = n :: topClassNames rest from rfl, List.filter_cons]
            simp [hd]
      | importFrom mn ns =>
          rw [show rewriteStmtList M (.importFrom mn ns :: rest)
              = .importFrom mn ns :: rewriteStmtList M rest from by
            simp [rewriteStmtList, isDroppedClass, rewriteStmt]]
          rw [show topClassNames (Stmt.importFrom mn ns :: rewriteStmtList M rest)
              = topClassNames (rewriteStmtList M rest) from rfl]
          rw [show topClassNames (Stmt.importFrom mn ns :: rest)
              = topClassNames rest from rfl]
          exact ih
      | exprStmt e =>
          rw [show rewriteStmtList M (.exprStmt e :: rest)
              = .exprStmt (rewriteExpr M e) :: rewriteStmtList M rest from by
            simp [rewriteStmtList, isDroppedClass, rewriteStmt]]
          rw [show topClassNames (Stmt.exprStmt (rewriteExpr M e) :: rewriteStmtList M rest)
              = topClassNames (rewriteStmtList M rest) from rfl]
          rw [show topClassNames (Stmt.exprStmt e :: rest) = topClassNames rest from rfl]
          exact ih
      | passStmt =>
          rw [show rewriteStmtList M (.passStmt :: rest)
              = .passStmt :: rewriteStmtList M rest from by
            simp [rewriteStmtList, isDroppedClass, rewriteStmt]]
          rw [show topClassNames (Stmt.passStmt :: rewriteStmtList M rest)
              = topClassNames (rewriteStmtList M rest) from rfl]
          rw [show topClassNames (Stmt.passStmt :: rest) = topClassNames rest from rfl]
          exact ih
      | annAssign t a v =>
          have hr : rewriteStmtList M (.annAssign t a v :: rest)
              = rewriteStmt M (.annAssign t a v) :: rewriteStmtList M rest := by
            simp [rewriteStmtList, isDroppedClass]
          rw [hr]
          have hskip : topClassNames (rewriteStmt M (.annAssign t a v) :: rewriteStmtList M rest)
              = topClassNames (rewriteStmtList M rest) := by
            cases v <;> rfl
          rw [hskip, show topClassNames (Stmt.annAssign t a v :: rest)
              = topClassNames rest from rfl]
          exact ih

/-- C7 counterexample: a class whose body is a single `pass` but with two
bases, and a class whose body is a single `typename__` override but whose base
is `GQLResult`, are both rejected by `is_redundant_subclass_def` — the body
shape alone does not characterize detection. -/
theorem redundant_detection_requires_single_base :
    is_redundant_subclass_def (.classDef "C" ["A", "B"] [.passStmt]) = false ∧
    is_redundant_subclass_def
      (.classDef "D" ["GQLResult"]
        [.annAssign (.name "typename__") (.name "T") none]) = false :=
  ⟨rfl, rfl⟩

/-- C7 (amended): detection requires a single base class and a body that is a
single `pass`, or a single `typename__` annotated override with the base not
named `GQLResult`.  The replacement drops every detected class definition and
maps every `Name` reference through the substitution (unquoting forward
references first), so that when no substituted parent name is itself an
eliminated name, the output references no eliminated class. -/
theorem redundant_subclass_detection_and_replacement (s : Stmt) (m : Module)
    (hvals : ∀ kv ∈ class_name_replacements m.body,
      stripQuotes kv.2 ∉ (class_name_replacements m.body).map Prod.fst) :
    (is_redundant_subclass_def s = true ↔
      ∃ n b body1, s = .classDef n [b] [body1] ∧
        (body1 = .passStmt ∨
          ∃ a v, body1 = .annAssign (.name "typename__") a v ∧ b ≠ "GQLResult")) ∧
    (∀ x ∈ stmtNamesList (replace_redundant_classes m).body,
      stripQuotes x ∉ (class_name_replacements m.body).map Prod.fst) ∧
    topClassNames (replace_redundant_classes m).body
      = (topClassNames m.body).filter
          fun n => !((class_name_replacements m.body).any fun kv => decide (kv.1 = n)) := by
  refine ⟨?_, ?_, topClassNames_rewrite _ _⟩
  · cases s with
    | importFrom mn ns =>
        refine iff_of_false (by simp only [Bool.not_eq_true]; rfl) ?_
        rintro ⟨n2, b2, body1, heq, -⟩
        exact Stmt.noConfusion heq
    | exprStmt e =>
        refine iff_of_false (by simp only [Bool.not_eq_true]; rfl) ?_
        rintro ⟨n2, b2, body1, heq, -⟩
        exact Stmt.noConfusion heq
    | passStmt =>
        refine iff_of_false (by simp only [Bool.not_eq_true]; rfl) ?_
        rintro ⟨n2, b2, body1, heq, -⟩
        exact Stmt.noConfusion heq
    | annAssign t a v =>
        refine iff_of_false (by simp only [Bool.not_eq_true]; rfl) ?_
        rintro ⟨n2, b2, body1, heq, -⟩
        exact Stmt.noConfusion heq
    | classDef n bs body =>
        rcases bs with _ | ⟨b, bs'⟩
        · refine iff_of_false (by simp only [Bool.not_eq_true]; rfl) ?_
          rintro ⟨n2, b2, body1, heq, -⟩
          injection heq with e1 e2 e3
          exact List.noConfusion e2
        rcases bs' with _ | ⟨b2x, bs''⟩
        · rcases body with _ | ⟨st, body'⟩
          · refine iff_of_false (by simp only [Bool.not_eq_true]; rfl) ?_
            rintro ⟨n2, b2, body1, heq, -⟩
            injection heq with e1 e2 e3
            exact List.noConfusion e3
          rcases body' with _ | ⟨st2, body''⟩
          · cases st with
            | passStmt =>
                exact iff_of_true rfl ⟨n, b, .passStmt, rfl, Or.inl rfl⟩
            | annAssign t a v =>
                cases t with
                | name tn =>
                    constructor
                    · intro h
                      have hh : b ≠ "GQLResult" ∧ tn = "typename__" := by
                        simpa [is_redundant_subclass_def, Bool.and_eq_true,
                          decide_eq_true_eq] using h
                      exact ⟨n, b, .annAssign (.name tn) a v, rfl,
                        Or.inr ⟨a, v, by rw [hh.2], hh.1⟩⟩
                    · rintro ⟨n2, b2, body1, heq, hcase⟩
                      injection heq with e1 e2 e3
                      injection e2 with e2a e2b
                      injection e3 with e3a e3b
                      rcases hcase with hpass | ⟨a2, v2, hann, hbne⟩
                      · rw [← e3a] at hpass
                        exact Stmt.noConfusion hpass
                      · rw [← e3a] at hann
                        injection hann with z1 z2 z3
                        injection z1 with z4
                        rw [← e2a] at hbne
                        simp [is_redundant_subclass_def, z4, hbne]
                | strLit ss =>
                    refine iff_of_false (by simp only [Bool.not_eq_true]; rfl) ?_
                    rintro ⟨n2, b2, body1, heq, hcase⟩
                    injection heq with e1 e2 e3
                    injection e3 with e3a e3b
                    rcases hcase with hpass | ⟨a2, v2, hann, -⟩
                    · rw [← e3a] at hpass
                      exact Stmt.noConfusion hpass
                    · rw [← e3a] at hann
                      injection hann with z1 z2 z3
                      exact PExpr.noConfusion z1
                | attr o aa =>
                    refine iff_of_false (by simp only [Bool.not_eq_true]; rfl) ?_
                    rintro ⟨n2, b2, body1, heq, hcase⟩
                    injection heq with e1 e2 e3
                    injection e3 with e3a e3b
                    rcases hcase with hpass | ⟨a2, v2, hann, -⟩
                    · rw [← e3a] at hpass
                      exact Stmt.noConfusion hpass
                    · rw [← e3a] at hann
                      injection hann with z1 z2 z3
                      exact PExpr.noConfusion z1
                | subscript vv ii =>
                    refine iff_of_false (by simp only [Bool.not_eq_true]; rfl) ?_
                    rintro ⟨n2, b2, body1, heq, hcase⟩
                    injection heq with e1 e2 e3
                    injection e3 with e3a e3b
                    rcases hcase with hpass | ⟨a2, v2, hann, -⟩
                    · rw [← e3a] at hpass
                      exact Stmt.noConfusion hpass
                    · rw [← e3a] at hann
                      injection hann with z1 z2 z3
                      exact PExpr.noConfusion z1
                | call f args =>
                    refine iff_of_false (by simp only [Bool.not_eq_true]; rfl) ?_
                    rintro ⟨n2, b2, body1, heq, hcase⟩
                    injection heq with e1 e2 e3
                    injection e3 with e3a e3b
                    rcases hcase with hpass | ⟨a2, v2, hann, -⟩
                    · rw [← e3a] at hpass
                      exact Stmt.noConfusion hpass
                    · rw [← e3a] at hann
                      injection hann with z1 z2 z3
                      exact PExpr.noConfusion z1
            | importFrom mn ns =>
                refine iff_of_false (by simp only [Bool.not_eq_true]; rfl) ?_
                rintro ⟨n2, b2, body1, heq, hcase⟩
                injection heq with e1 e2 e3
                injection e3 with e3a e3b
                rcases hcase with hpass | ⟨a2, v2, hann, -⟩
                · rw [← e3a] at hpass
                  exact Stmt.noConfusion hpass
                · rw [← e3a] at hann
                  exact Stmt.noConfusion hann
            | exprStmt e =>
                refine iff_of_false (by simp only [Bool.not_eq_true]; rfl) ?_
                rintro ⟨n2, b2, body1, heq, hcase⟩
                injection heq with e1 e2 e3
                injection e3 with e3a e3b
                rcases hcase with hpass | ⟨a2, v2, hann, -⟩
                · rw [← e3a] at hpass
                  exact Stmt.noConfusion hpass
                · rw [← e3a] at hann
                  exact Stmt.noConfusion hann
            | classDef n3 bs3 body3 =>
                refine iff_of_false (by simp only [Bool.not_eq_true]; rfl) ?_
                rintro ⟨n2, b2, body1, heq, hcase⟩
                injection heq with e1 e2 e3
                injection e3 with e3a e3b
                rcases hcase with hpass | ⟨a2, v2, hann, -⟩
                · rw [← e3a] at hpass
                  exact Stmt.noConfusion hpass
                · rw [← e3a] at hann
                  exact Stmt.noConfusion hann
          · refine iff_of_false (by simp only [Bool.not_eq_true]; rfl) ?_
            rintro ⟨n2, b2, body1, heq, -⟩
            injection heq with e1 e2 e3
            injection e3 with e3a e3b
            exact List.noConfusion e3b
        · refine iff_of_false (by simp only [Bool.not_eq_true]; rfl) ?_
          rintro ⟨n2, b2, body1, heq, -⟩
          injection heq with e1 e2 e3
          injection e2 with e2a e2b
          exact List.noConfusion e2b
  · intro x hx
    obtain ⟨y, rfl⟩ := stmtNamesList_rewrite _ _ x hx
    exact stripQuotes_renameId_not_key _ hvals y

/-- Witness for C7 (amended) at a concrete module: `R(P)` is eliminated, and
both the base reference `R` and the quoted forward reference `'R'` in `K` are
substituted by `P`. -/
theorem redundant_subclass_detection_and_replacement_witness :
    (∀ kv ∈ class_name_replacements exSubstM.body,
      stripQuotes kv.2 ∉ (class_name_replacements exSubstM.body).map Prod.fst) ∧
    ((is_redundant_subclass_def exRedundantStmt = true ↔
      ∃ n b body1, exRedundantStmt = .classDef n [b] [body1] ∧
        (body1 = .passStmt ∨
          ∃ a v, body1 = .annAssign (.name "typename__") a v ∧ b ≠ "GQLResult")) ∧
    (∀ x ∈ stmtNamesList (replace_redundant_classes exSubstM).body,
      stripQuotes x ∉ (class_name_replacements exSubstM.body).map Prod.fst) ∧
    topClassNames (replace_redundant_classes exSubstM).body
      = (topClassNames exSubstM.body).filter
          fun n => !((class_name_replacements exSubstM.body).any
            fun kv => decide (kv.1 = n))) :=
  ⟨by decide,
    redundant_subclass_detection_and_replacement exRedundantStmt exSubstM (by decide)⟩

/-- C6 counterexample: `exCycleM` has exactly the expected top-level statement
types `{ImportFrom, ClassDef, Expr}`, yet `generate_fragments_module` still
raises, because the class hierarchy `A(A)` makes `static_order()` raise
`CycleError` — raising is not equivalent to the statement-type check. -/
theorem generate_fragments_raises_on_expected_shape :
    (exCycleM.body.map stmtType).toFinset
      = ({.importFrom, .classDef, .exprStmt} : Finset StmtTy) ∧
    generate_fragments_module exCycleM = .error "CycleError" :=
  ⟨by decide, rfl⟩

/-- C6 (amended): `generate_fragments_module` raises iff the set of top-level
statement types differs from exactly `{ImportFrom, ClassDef, Expr}` or the
class hierarchy is cyclic (`CycleError` from `static_order`); otherwise it
returns the imports followed by the reordered class definitions and their
regenerated `model_rebuild()` calls. -/
theorem generate_fragments_raises_iff (m : Module) :
    ((∃ e, generate_fragments_module m = .error e) ↔
      ((m.body.map stmtType).toFinset
          ≠ ({.importFrom, .classDef, .exprStmt} : Finset StmtTy) ∨
        sorted_class_defs (m.body.filter fun s => decide (stmtType s = .classDef))
          = none)) ∧
    (∀ mm : Module, generate_fragments_module m = .ok mm ↔
      ((m.body.map stmtType).toFinset
          = ({.importFrom, .classDef, .exprStmt} : Finset StmtTy) ∧
        ∃ ordered,
          sorted_class_defs (m.body.filter fun s => decide (stmtType s = .classDef))
              = some ordered ∧
          mm = ⟨(m.body.filter fun s => decide (stmtType s = .importFrom)) ++ ordered
                ++ ordered.map fun c => make_model_rebuild (clsName c)⟩)) := by
  have hunf : generate_fragments_module m =
      if (m.body.map stmtType).toFinset
          ≠ ({.importFrom, .classDef, .exprStmt} : Finset StmtTy) then
        .error "Unexpected statements in fragments module."
      else
        match sorted_class_defs (m.body.filter fun s => decide (stmtType s = .classDef)) with
        | none => .error "CycleError"
        | some ordered =>
            .ok ⟨(m.body.filter fun s => decide (stmtType s = .importFrom)) ++ ordered
                  ++ ordered.map fun c => make_model_rebuild (clsName c)⟩ := rfl
  by_cases hty : (m.body.map stmtType).toFinset
      = ({.importFrom, .classDef, .exprStmt} : Finset StmtTy)
  · rw [if_neg (by simpa using hty)] at hunf
    rcases hsort : sorted_class_defs (m.body.filter fun s => decide (stmtType s = .classDef))
        with _ | ordered
    · rw [hsort] at hunf
      refine ⟨⟨fun _ => Or.inr rfl, fun _ => ⟨"CycleError", hunf⟩⟩, fun mm => ⟨?_, ?_⟩⟩
      · intro h
        rw [hunf] at h
        exact absurd h (by simp)
      · rintro ⟨-, ordered2, hord2, -⟩
        exact Option.noConfusion hord2
    · rw [hsort] at hunf
      refine ⟨⟨?_, ?_⟩, fun mm => ⟨?_, ?_⟩⟩
      · rintro ⟨e, he⟩
        rw [hunf] at he
        exact absurd he (by simp)
      · rintro (hne | hnone)
        · exact absurd hty hne
        · exact Option.noConfusion hnone
      · intro h
        rw [hunf] at h
        injection h with h2
        exact ⟨hty, ordered, rfl, h2.symm⟩
      · rintro ⟨-, ordered2, hord2, hmm⟩
        injection hord2 with he
        subst he
        subst hmm
        exact hunf
  · rw [if_pos (by simpa using hty)] at hunf
    refine ⟨⟨fun _ => Or.inl hty, fun _ => ⟨_, hunf⟩⟩, fun mm => ⟨?_, ?_⟩⟩
    · intro h
      rw [hunf] at h
      exact absurd h (by simp)
    · rintro ⟨h, -⟩
      exact absurd h hty

/-! ### Helper lemmas: `graphlib` node-info lookups -/

theorem updEntry_map_fst (xs : NodeInfo) (n : String)
    (f : Int × List String → Int × List String) :
    (updEntry xs n f).map Prod.fst = xs.map Prod.fst := by
  unfold updEntry
  rw [List.map_map]
  refine List.map_congr_left fun e _ => ?_
  by_cases he : e.1 = n <;> simp [he]

theorem find?_updEntry (xs : NodeInfo) (n : String)
    (f : Int × List String → Int × List String) (m : String) :
    (updEntry xs n f).find? (fun e => decide (e.1 = m))
      = (xs.find? fun e => decide (e.1 = m)).map
          fun e => if e.1 = n then (e.1, f e.2) else e := by
  induction xs with
  | nil => rfl
  | cons e rest ih =>
      have hfst : ((if e.1 = n then (e.1, f e.2) else e) : String × Int × List String).1
          = e.1 := by
        by_cases he : e.1 = n <;> simp [he]
      rw [show updEntry (e :: rest) n f
          = (if e.1 = n then (e.1, f e.2) else e) :: updEntry rest n f from by
        unfold updEntry; rw [List.map_cons]]
      by_cases hm : e.1 = m
      · rw [List.find?_cons_of_pos _ (by rw [hfst]; simp [hm]),
          List.find?_cons_of_pos _ (by simp [hm])]
        simp
      · rw [List.find?_cons_of_neg _ (by rw [hfst]; simp [hm]),
          List.find?_cons_of_neg _ (by simp [hm])]
        exact ih

theorem lookupNpred_of_find?_eq_none (xs : NodeInfo) (m : String)
    (h : (xs.find? fun e => decide (e.1 = m)) = none) : lookupNpred xs m = 0 := by
  unfold lookupNpred
  rw [h]
  rfl

theorem find?_eq_none_of_not_mem (xs : NodeInfo) (m : String)
    (hm : m ∉ xs.map Prod.fst) : (xs.find? fun e => decide (e.1 = m)) = none := by
  rw [List.find?_eq_none]
  intro e he
  simp only [decide_eq_true_eq]
  intro hfst
  exact hm (List.mem_map.mpr ⟨e, he, hfst⟩)

theorem lookupNpred_of_not_mem (xs : NodeInfo) (m : String)
    (hm : m ∉ xs.map Prod.fst) : lookupNpred xs m = 0 :=
  lookupNpred_of_find?_eq_none xs m (find?_eq_none_of_not_mem xs m hm)

theorem find?_isSome_of_mem (xs : NodeInfo) (m : String) (hm : m ∈ xs.map Prod.fst) :
    ∃ e, (xs.find? fun e => decide (e.1 = m)) = some e ∧ e.1 = m := by
  cases hf : xs.find? fun e => decide (e.1 = m) with
  | none =>
      exfalso
      obtain ⟨e, he, hfst⟩ := List.mem_map.mp hm
      have := List.find?_eq_none.mp hf e he
      simp [hfst] at this
  | some e =>
      refine ⟨e, rfl, ?_⟩
      have := List.find?_some hf
      simpa using this

theorem lookupNpred_bump (xs : NodeInfo) (n : String) (k : Int) (m : String)
    (hn : n ∈ xs.map Prod.fst) :
    lookupNpred (bumpNpred xs n k) m
      = if m = n then lookupNpred xs m + k else lookupNpred xs m := by
  unfold bumpNpred
  unfold lookupNpred
  rw [find?_updEntry]
  cases hf : xs.find? fun e => decide (e.1 = m) with
  | none =>
      by_cases hmn : m = n
      · subst hmn
        obtain ⟨e, he, -⟩ := find?_isSome_of_mem xs m hn
        rw [he] at hf
        exact Option.noConfusion hf
      · simp [hmn]
  | some e =>
      have hefst : e.1 = m := by
        have := List.find?_some hf
        simpa using this
      by_cases hmn : m = n
      · subst hmn
        simp [hefst]
      · have : ¬ (e.1 = n) := by rw [hefst]; exact hmn
        simp [this, hmn]

theorem lookupNpred_set (xs : NodeInfo) (n : String) (k : Int) (m : String)
    (hn : n ∈ xs.map Prod.fst) :
    lookupNpred (setNpred xs n k) m = if m = n then k else lookupNpred xs m := by
  unfold setNpred
  unfold lookupNpred
  rw [find?_updEntry]
  cases hf : xs.find? fun e => decide (e.1 = m) with
  | none =>
      by_cases hmn : m = n
      · subst hmn
        obtain ⟨e, he, -⟩ := find?_isSome_of_mem xs m hn
        rw [he] at hf
        exact Option.noConfusion hf
      · simp [hmn]
  | some e =>
      have hefst : e.1 = m := by
        have := List.find?_some hf
        simpa using this
      by_cases hmn : m = n
      · subst hmn
        simp [hefst]
      · have : ¬ (e.1 = n) := by rw [hefst]; exact hmn
        simp [this, hmn]

theorem lookupSuccs_bump (xs : NodeInfo) (n : String) (k : Int) (m : String) :
    lookupSuccs (bumpNpred xs n k) m = lookupSuccs xs m := by
  unfold bumpNpred
  unfold lookupSuccs
  rw [find?_updEntry]
  cases hf : xs.find? fun e => decide (e.1 = m) with
  | none => rfl
  | some e => by_cases he : e.1 = n <;> simp [he]

theorem lookupSuccs_set (xs : NodeInfo) (n : String) (k : Int) (m : String) :
    lookupSuccs (setNpred xs n k) m = lookupSuccs xs m := by
  unfold setNpred
  unfold lookupSuccs
  rw [find?_updEntry]
  cases hf : xs.find? fun e => decide (e.1 = m) with
  | none => rfl
  | some e => by_cases he : e.1 = n <;> simp [he]

theorem bumpNpred_map_fst (xs : NodeInfo) (n : String) (k : Int) :
    (bumpNpred xs n k).map Prod.fst = xs.map Prod.fst := updEntry_map_fst xs n _

theorem setNpred_map_fst (xs : NodeInfo) (n : String) (k : Int) :
    (setNpred xs n k).map Prod.fst = xs.map Prod.fst := updEntry_map_fst xs n _

theorem lookupNpred_bump_self (xs : NodeInfo) (n : String) (k : Int)
    (hn : n ∈ xs.map Prod.fst) :
    lookupNpred (bumpNpred xs n k) n = lookupNpred xs n + k := by
  rw [lookupNpred_bump xs n k n hn, if_pos rfl]

theorem lookupNpred_bump_ne (xs : NodeInfo) (n : String) (k : Int) (m : String)
    (hm : m ≠ n) : lookupNpred (bumpNpred xs n k) m = lookupNpred xs m := by
  by_cases hn : n ∈ xs.map Prod.fst
  · rw [lookupNpred_bump xs n k m hn, if_neg hm]
  · unfold bumpNpred
    unfold lookupNpred
    rw [find?_updEntry]
    cases hf : xs.find? fun e => decide (e.1 = m) with
    | none => rfl
    | some e =>
        have hefst : e.1 = m := by
          have := List.find?_some hf
          simpa using this
        have : ¬ (e.1 = n) := by rw [hefst]; exact hm
        simp [this]

theorem any_fst_eq (xs : NodeInfo) (n : String) :
    (xs.any fun e => decide (e.1 = n)) = true ↔ n ∈ xs.map Prod.fst := by
  simp only [List.any_eq_true, decide_eq_true_eq, List.mem_map]

theorem getNodeinfo_of_mem (xs : NodeInfo) (n : String) (h : n ∈ xs.map Prod.fst) :
    getNodeinfo xs n = xs := by
  unfold getNodeinfo
  rw [if_pos ((any_fst_eq xs n).mpr h)]

theorem getNodeinfo_of_not_mem (xs : NodeInfo) (n : String) (h : n ∉ xs.map Prod.fst) :
    getNodeinfo xs n = xs ++ [(n, 0, [])] := by
  unfold getNodeinfo
  rw [if_neg (fun hc => h ((any_fst_eq xs n).mp hc))]

theorem find?_append_of_none {α : Type} {p : α → Bool} (l1 l2 : List α)
    (h : l1.find? p = none) : (l1 ++ l2).find? p = l2.find? p := by
  induction l1 with
  | nil => rfl
  | cons a l1 ih =>
      rw [List.find?_cons] at h
      cases hp : p a with
      | true => rw [hp] at h; exact Option.noConfusion h
      | false =>
          rw [hp] at h
          rw [List.cons_append, List.find?_cons, hp]
          exact ih h

theorem find?_append_of_some {α : Type} {p : α → Bool} (l1 l2 : List α) (a : α)
    (h : l1.find? p = some a) : (l1 ++ l2).find? p = some a := by
  induction l1 with
  | nil => exact Option.noConfusion h
  | cons b l1 ih =>
      rw [List.find?_cons] at h
      cases hp : p b with
      | true =>
          rw [hp] at h
          rw [List.cons_append, List.find?_cons, hp]
          exact h
      | false =>
          rw [hp] at h
          rw [List.cons_append, List.find?_cons, hp]
          exact ih h

theorem getNodeinfo_map_fst_mem (xs : NodeInfo) (n m : String) :
    m ∈ (getNodeinfo xs n).map Prod.fst ↔ m ∈ xs.map Prod.fst ∨ m = n := by
  by_cases h : n ∈ xs.map Prod.fst
  · rw [getNodeinfo_of_mem xs n h]
    constructor
    · exact fun hm => Or.inl hm
    · rintro (hm | rfl)
      · exact hm
      · exact h
  · rw [getNodeinfo_of_not_mem xs n h]
    simp

theorem getNodeinfo_nodup (xs : NodeInfo) (n : String)
    (hnd : (xs.map Prod.fst).Nodup) : ((getNodeinfo xs n).map Prod.fst).Nodup := by
  by_cases h : n ∈ xs.map Prod.fst
  · rw [getNodeinfo_of_mem xs n h]
    exact hnd
  · rw [getNodeinfo_of_not_mem xs n h]
    simp only [List.map_append, List.map_cons, List.map_nil]
    rw [List.nodup_append]
    refine ⟨hnd, List.nodup_singleton n, fun a ha hb => ?_⟩
    rw [List.mem_singleton] at hb
    subst hb
    exact h ha

theorem lookupNpred_getNodeinfo (xs : NodeInfo) (n m : String) :
    lookupNpred (getNodeinfo xs n) m = lookupNpred xs m := by
  by_cases h : n ∈ xs.map Prod.fst
  · rw [getNodeinfo_of_mem xs n h]
  · rw [getNodeinfo_of_not_mem xs n h]
    by_cases hm : m ∈ xs.map Prod.fst
    · obtain ⟨e, he, -⟩ := find?_isSome_of_mem xs m hm
      unfold lookupNpred
      rw [find?_append_of_some xs _ e he, he]
    · have hfn := find?_eq_none_of_not_mem xs m hm
      unfold lookupNpred
      rw [find?_append_of_none xs _ hfn, hfn]
      by_cases hmn : m = n
      · subst hmn
        rw [List.find?_cons_of_pos _ (by simp)]
        rfl
      · rw [List.find?_cons_of_neg _ (by
          simp only [decide_eq_true_eq]
          exact fun hc => hmn hc.symm)]
        rfl

theorem lookupSuccs_getNodeinfo (xs : NodeInfo) (n m : String) :
    lookupSuccs (getNodeinfo xs n) m = lookupSuccs xs m := by
  by_cases h : n ∈ xs.map Prod.fst
  · rw [getNodeinfo_of_mem xs n h]
  · rw [getNodeinfo_of_not_mem xs n h]
    by_cases hm : m ∈ xs.map Prod.fst
    · obtain ⟨e, he, -⟩ := find?_isSome_of_mem xs m hm
      unfold lookupSuccs
      rw [find?_append_of_some xs _ e he, he]
    · have hfn := find?_eq_none_of_not_mem xs m hm
      unfold lookupSuccs
      rw [find?_append_of_none xs _ hfn, hfn]
      by_cases hmn : m = n
      · subst hmn
        rw [List.find?_cons_of_pos _ (by simp)]
        rfl
      · rw [List.find?_cons_of_neg _ (by
          simp only [decide_eq_true_eq]
          exact fun hc => hmn hc.symm)]
        rfl

theorem pushSucc_map_fst (xs : NodeInfo) (p c : String) :
    (pushSucc xs p c).map Prod.fst = xs.map Prod.fst := updEntry_map_fst xs p _

theorem lookupNpred_push (xs : NodeInfo) (p c m : String) :
    lookupNpred (pushSucc xs p c) m = lookupNpred xs m := by
  unfold pushSucc
  unfold lookupNpred
  rw [find?_updEntry]
  cases hf : xs.find? fun e => decide (e.1 = m) with
  | none => rfl
  | some e => by_cases he : e.1 = p <;> simp [he]

theorem lookupSuccs_push (xs : NodeInfo) (p c m : String) (hp : p ∈ xs.map Prod.fst) :
    lookupSuccs (pushSucc xs p c) m
      = if m = p then lookupSuccs xs m ++ [c] else lookupSuccs xs m := by
  unfold pushSucc
  unfold lookupSuccs
  rw [find?_updEntry]
  cases hf : xs.find? fun e => decide (e.1 = m) with
  | none =>
      by_cases hmp : m = p
      · subst hmp
        obtain ⟨e, he, -⟩ := find?_isSome_of_mem xs m hp
        rw [he] at hf
        exact Option.noConfusion hf
      · simp [hmp]
  | some e =>
      have hefst : e.1 = m := by
        have := List.find?_some hf
        simpa using this
      by_cases hmp : m = p
      · subst hmp
        simp [hefst]
      · have : ¬ (e.1 = p) := by rw [hefst]; exact hmp
        simp [this, hmp]

theorem lookupNpred_of_mem_nodup (xs : NodeInfo) :
    (xs.map Prod.fst).Nodup → ∀ e ∈ xs, lookupNpred xs e.1 = e.2.1 := by
  induction xs with
  | nil =>
      intro _ e he
      exact absurd he (List.not_mem_nil e)
  | cons a rest ih =>
      intro hnd e he
      rw [List.map_cons, List.nodup_cons] at hnd
      rcases List.mem_cons.mp he with rfl | he2
      · unfold lookupNpred
        rw [List.find?_cons_of_pos _ (by simp)]
        rfl
      · have hane : ¬ (a.1 = e.1) := fun hc =>
          hnd.1 (hc ▸ List.mem_map.mpr ⟨e, he2, rfl⟩)
      
        have := ih hnd.2 e he2
        unfold lookupNpred at this ⊢
        rw [List.find?_cons_of_neg _ (by simpa using hane)]
        exact this

theorem addSuccs_step (key p : String) (preds : List String) (ys : NodeInfo) :
    addSuccs key (p :: preds) ys = addSuccs key preds (pushSucc (getNodeinfo ys p) p key) :=
  rfl

theorem addSuccs_names (key : String) (preds : List String) : ∀ (ys : NodeInfo) (m : String),
    m ∈ (addSuccs key preds ys).map Prod.fst ↔ m ∈ ys.map Prod.fst ∨ m ∈ preds := by
  induction preds with
  | nil =>
      intro ys m
      simp [addSuccs]
  | cons p preds ih =>
      intro ys m
      rw [addSuccs_step, ih, pushSucc_map_fst, getNodeinfo_map_fst_mem]
      rw [List.mem_cons]
      tauto

theorem addSuccs_nodup (key : String) (preds : List String) : ∀ (ys : NodeInfo),
    (ys.map Prod.fst).Nodup → ((addSuccs key preds ys).map Prod.fst).Nodup := by
  induction preds with
  | nil =>
      intro ys h
      exact h
  | cons p preds ih =>
      intro ys h
      rw [addSuccs_step]
      refine ih _ ?_
      rw [pushSucc_map_fst]
      exact getNodeinfo_nodup ys p h

theorem addSuccs_npred (key : String) (preds : List String) : ∀ (ys : NodeInfo) (m : String),
    lookupNpred (addSuccs key preds ys) m = lookupNpred ys m := by
  induction preds with
  | nil =>
      intro ys m
      rfl
  | cons p preds ih =>
      intro ys m
      rw [addSuccs_step, ih, lookupNpred_push, lookupNpred_getNodeinfo]

theorem addSuccs_succ_count (key : String) (preds : List String) :
    ∀ (ys : NodeInfo) (q n : String),
    (lookupSuccs (addSuccs key preds ys) q).count n
      = (lookupSuccs ys q).count n + (if n = key then preds.count q else 0) := by
  induction preds with
  | nil =>
      intro ys q n
      simp [addSuccs]
  | cons p preds ih =>
      intro ys q n
      rw [addSuccs_step, ih]
      rw [lookupSuccs_push _ p key q (by
        rw [getNodeinfo_map_fst_mem]
        exact Or.inr rfl)]
      rw [lookupSuccs_getNodeinfo]
      by_cases hq : q = p
      · rw [if_pos hq, List.count_append]
        by_cases hn : n = key
        · rw [if_pos hn, if_pos hn]
          have h1 : List.count n [key] = 1 := by
            rw [List.count_cons, List.count_nil]
            simp [hn]
          have h2 : List.count q (p :: preds) = List.count q preds + 1 := by
            rw [List.count_cons]
            simp [hq]
          omega
        · rw [if_neg hn, if_neg hn]
          have h1 : List.count n [key] = 0 := by
            rw [List.count_cons, List.count_nil]
            simp only [beq_iff_eq]
            rw [if_neg fun hc => hn hc.symm]
          omega
      · rw [if_neg hq]
        by_cases hn : n = key
        · rw [if_pos hn, if_pos hn]
          have h2 : List.count q (p :: preds) = List.count q preds := by
            rw [List.count_cons]
            simp only [beq_iff_eq]
            rw [if_neg fun hc => hq hc.symm]
            omega
          omega
        · rw [if_neg hn, if_neg hn]

theorem addSuccs_succ_mem (key : String) (preds : List String) :
    ∀ (ys : NodeInfo) (q s : String),
    s ∈ lookupSuccs (addSuccs key preds ys) q → s ∈ lookupSuccs ys q ∨ s = key := by
  induction preds with
  | nil =>
      intro ys q s hs
      exact Or.inl hs
  | cons p preds ih =>
      intro ys q s hs
      rw [addSuccs_step] at hs
      rcases ih _ q s hs with hmem | rfl
      · rw [lookupSuccs_push _ p key q (by
          rw [getNodeinfo_map_fst_mem]
          exact Or.inr rfl), lookupSuccs_getNodeinfo] at hmem
        by_cases hq : q = p
        · rw [if_pos hq] at hmem
          rcases List.mem_append.mp hmem with hmem | hmem
          · exact Or.inl hmem
          · exact Or.inr (by simpa using hmem)
        · rw [if_neg hq] at hmem
          exact Or.inl hmem
      · exact Or.inr rfl

theorem find?_fst_eq_none_of_not_mem {β : Type} (xs : List (String × β)) (m : String)
    (hm : m ∉ xs.map Prod.fst) : (xs.find? fun e => decide (e.1 = m)) = none := by
  rw [List.find?_eq_none]
  intro e he
  simp only [decide_eq_true_eq]
  intro hfst
  exact hm (List.mem_map.mpr ⟨e, he, hfst⟩)

theorem predsOf_of_not_mem (g : List (String × List String)) (n : String)
    (h : n ∉ g.map Prod.fst) : predsOf g n = [] := by
  unfold predsOf
  rw [find?_fst_eq_none_of_not_mem g n h]
  rfl

theorem predsOf_append_fresh (g1 : List (String × List String)) (key : String)
    (preds : List String) (hkey : key ∉ g1.map Prod.fst) (n : String) :
    predsOf (g1 ++ [(key, preds)]) n = if n = key then preds else predsOf g1 n := by
  unfold predsOf
  by_cases hn : n = key
  · subst hn
    rw [find?_append_of_none _ _ (find?_fst_eq_none_of_not_mem g1 n hkey)]
    rw [List.find?_cons_of_pos _ (by simp)]
    simp
  · rw [if_neg hn]
    cases hf : g1.find? fun e => decide (e.1 = n) with
    | none =>
        rw [find?_append_of_none _ _ hf,
          List.find?_cons_of_neg _ (by
            simp only [decide_eq_true_eq]
            exact fun hc => hn hc.symm)]
        rfl
    | some e =>
        rw [find?_append_of_some _ _ e hf]

theorem buildInv_step (g1 : List (String × List String)) (xs : NodeInfo)
    (inv : BuildInv g1 xs) (key : String) (preds : List String)
    (hkey : key ∉ g1.map Prod.fst) :
    BuildInv (g1 ++ [(key, preds)]) (addNode xs key preds) := by
  have hkey_in1 : key ∈ (getNodeinfo xs key).map Prod.fst := by
    rw [getNodeinfo_map_fst_mem]
    exact Or.inr rfl
  have hnames2 : ∀ m, m ∈ (bumpNpred (getNodeinfo xs key) key preds.length).map Prod.fst
      ↔ m ∈ xs.map Prod.fst ∨ m = key := by
    intro m
    rw [bumpNpred_map_fst, getNodeinfo_map_fst_mem]
  have hnames : ∀ m, m ∈ (addNode xs key preds).map Prod.fst
      ↔ (m ∈ xs.map Prod.fst ∨ m = key) ∨ m ∈ preds := by
    intro m
    rw [show addNode xs key preds
        = addSuccs key preds (bumpNpred (getNodeinfo xs key) key preds.length) from rfl]
    rw [addSuccs_names, hnames2]
  have hnp2 : ∀ m, lookupNpred (bumpNpred (getNodeinfo xs key) key preds.length) m
      = if m = key then lookupNpred xs m + preds.length else lookupNpred xs m := by
    intro m
    rw [lookupNpred_bump _ _ _ _ hkey_in1]
    by_cases hm : m = key
    · rw [if_pos hm, if_pos hm, lookupNpred_getNodeinfo]
    · rw [if_neg hm, if_neg hm, lookupNpred_getNodeinfo]
  have hsuccs2 : ∀ q, lookupSuccs (bumpNpred (getNodeinfo xs key) key preds.length) q
      = lookupSuccs xs q := by
    intro q
    rw [lookupSuccs_bump, lookupSuccs_getNodeinfo]
  have hnp : ∀ m, lookupNpred (addNode xs key preds) m
      = if m = key then lookupNpred xs m + preds.length else lookupNpred xs m := by
    intro m
    rw [show addNode xs key preds
        = addSuccs key preds (bumpNpred (getNodeinfo xs key) key preds.length) from rfl]
    rw [addSuccs_npred, hnp2]
  have hsc : ∀ q m, (lookupSuccs (addNode xs key preds) q).count m
      = (lookupSuccs xs q).count m + (if m = key then preds.count q else 0) := by
    intro q m
    rw [show addNode xs key preds
        = addSuccs key preds (bumpNpred (getNodeinfo xs key) key preds.length) from rfl]
    rw [addSuccs_succ_count, hsuccs2]
  constructor
  · rw [show addNode xs key preds
        = addSuccs key preds (bumpNpred (getNodeinfo xs key) key preds.length) from rfl]
    refine addSuccs_nodup key preds _ ?_
    rw [bumpNpred_map_fst]
    exact getNodeinfo_nodup xs key inv.names_nodup
  · intro e he
    rcases List.mem_append.mp he with he1 | he2
    · exact (hnames e.1).mpr (Or.inl (Or.inl (inv.keys_mem e he1)))
    · rw [List.mem_singleton] at he2
      subst he2
      exact (hnames key).mpr (Or.inl (Or.inr rfl))
  · intro e he p hp
    rcases List.mem_append.mp he with he1 | he2
    · exact (hnames p).mpr (Or.inl (Or.inl (inv.preds_mem e he1 p hp)))
    · rw [List.mem_singleton] at he2
      subst he2
      exact (hnames p).mpr (Or.inr hp)
  · intro n
    rw [hnp, predsOf_append_fresh g1 key preds hkey]
    by_cases hn : n = key
    · rw [if_pos hn, if_pos hn, inv.npred, hn,
        predsOf_of_not_mem g1 key hkey]
      simp
    · rw [if_neg hn, if_neg hn, inv.npred]
  · intro p n
    rw [hsc, inv.succ_count, predsOf_append_fresh g1 key preds hkey]
    by_cases hn : n = key
    · rw [if_pos hn, if_pos hn, hn, predsOf_of_not_mem g1 key hkey]
      simp
    · rw [if_neg hn, if_neg hn]
      omega
  · intro p s hs
    rw [show addNode xs key preds
        = addSuccs key preds (bumpNpred (getNodeinfo xs key) key preds.length) from rfl]
      at hs
    rcases addSuccs_succ_mem key preds _ p s hs with hmem | rfl
    · rw [hsuccs2] at hmem
      exact (hnames s).mpr (Or.inl (Or.inl (inv.succ_mem p s hmem)))
    · exact (hnames s).mpr (Or.inl (Or.inr rfl))

theorem buildInv_fold (g2 : List (String × List String)) :
    ∀ (g1 : List (String × List String)) (xs : NodeInfo),
    BuildInv g1 xs → ((g1 ++ g2).map Prod.fst).Nodup →
    BuildInv (g1 ++ g2) (g2.foldl (fun xs e => addNode xs e.1 e.2) xs) := by
  induction g2 with
  | nil =>
      intro g1 xs inv _
      simpa using inv
  | cons e g2 ih =>
      intro g1 xs inv hnd
      have hkey : e.1 ∉ g1.map Prod.fst := by
        rw [List.map_append] at hnd
        have hdisj := (List.nodup_append.mp hnd).2.2
        intro hc
        exact hdisj hc (by simp)
      have step := buildInv_step g1 xs inv e.1 e.2 hkey
      have hres := ih (g1 ++ [(e.1, e.2)]) _ step (by simpa using hnd)
      simpa using hres

theorem buildInfo_inv (g : List (String × List String))
    (hnd : (g.map Prod.fst).Nodup) : BuildInv g (buildInfo g) := by
  have init : BuildInv [] [] := by
    constructor <;> simp [lookupNpred, lookupSuccs, predsOf]
  have hres := buildInv_fold g [] [] init (by simpa using hnd)
  simpa [buildInfo] using hres

theorem sum_map_add_aux (ds : List String) (f g : String → Nat) :
    (ds.map fun d => f d + g d).sum = (ds.map f).sum + (ds.map g).sum := by
  induction ds with
  | nil => rfl
  | cons d ds ih =>
      simp only [List.map_cons, List.sum_cons, ih]
      omega

theorem sum_ite_eq_mem (x : String) (ds : List String) (hnd : ds.Nodup) :
    (ds.map fun d => if x == d then 1 else 0).sum = if x ∈ ds then 1 else 0 := by
  induction ds with
  | nil => simp
  | cons d ds ih =>
      rw [List.map_cons, List.sum_cons]
      rw [List.nodup_cons] at hnd
      rw [ih hnd.2]
      by_cases hxd : x = d
      · subst hxd
        rw [if_pos (by simp), if_neg hnd.1, if_pos (List.mem_cons_self x ds)]
      · rw [if_neg (by simpa using hxd)]
        by_cases hxds : x ∈ ds
        · rw [if_pos hxds, if_pos (List.mem_cons_of_mem d hxds)]
        · rw [if_neg hxds, if_neg (by
            rw [List.mem_cons]
            rintro (rfl | hc)
            · exact hxd rfl
            · exact hxds hc)]

theorem countP_eq_sum_count (ds l : List String) (hnd : ds.Nodup) :
    (ds.map fun d => l.count d).sum = l.countP fun x => decide (x ∈ ds) := by
  induction l with
  | nil => simp
  | cons x l ih =>
      have hmap : ds.map (fun d => (x :: l).count d)
          = ds.map fun d => l.count d + if x == d then 1 else 0 :=
        List.map_congr_left fun d _ => by rw [List.count_cons]
      rw [hmap, sum_map_add_aux, ih, List.countP_cons, sum_ite_eq_mem x ds hnd]
      by_cases hx : x ∈ ds
      · rw [if_pos hx, if_pos (by simpa using hx)]
      · rw [if_neg hx, if_neg (by simpa using hx)]

theorem countP_split (l : List String) (p q : String → Bool) :
    l.countP p = l.countP (fun x => p x && q x) + l.countP fun x => p x && !q x := by
  induction l with
  | nil => rfl
  | cons x l ih =>
      rw [List.countP_cons, List.countP_cons, List.countP_cons]
      cases hp : p x <;> cases hq : q x <;> simp [hp, hq] <;> omega

theorem countP_mono_of_imp (l : List String) (p q : String → Bool)
    (h : ∀ x ∈ l, p x = true → q x = true) : l.countP p ≤ l.countP q := by
  induction l with
  | nil => exact Nat.le_refl 0
  | cons x l ih =>
      rw [List.countP_cons, List.countP_cons]
      have hih := ih fun y hy => h y (List.mem_cons_of_mem x hy)
      cases hp : p x
      · cases hq : q x <;> simp <;> omega
      · rw [if_pos (h x (List.mem_cons_self x l) hp)]
        simp
        omega

theorem countP_congr_of_mem (l : List String) (p q : String → Bool)
    (h : ∀ x ∈ l, p x = q x) : l.countP p = l.countP q := by
  induction l with
  | nil => rfl
  | cons x l ih =>
      rw [List.countP_cons, List.countP_cons,
        ih fun y hy => h y (List.mem_cons_of_mem x hy),
        h x (List.mem_cons_self x l)]

theorem count_cons_eq (t s : String) (l : List String) :
    (s :: l).count t = l.count t + if t = s then 1 else 0 := by
  rw [List.count_cons]
  by_cases h : t = s
  · rw [if_pos h, if_pos (by simpa using h.symm)]
  · rw [if_neg h, if_neg (by
      simp only [beq_iff_eq]
      exact fun hc => h hc.symm)]

theorem foldDec_spec (sl : List String) : ∀ (ys : NodeInfo) (acc : List String),
    (∀ s ∈ sl, s ∈ ys.map Prod.fst) →
    (∀ s, 0 ≤ lookupNpred ys s → (sl.count s : Int) ≤ lookupNpred ys s) →
    ((sl.foldl decStep (ys, acc)).1.map Prod.fst = ys.map Prod.fst) ∧
    (∀ p, lookupSuccs (sl.foldl decStep (ys, acc)).1 p = lookupSuccs ys p) ∧
    (∀ n, lookupNpred (sl.foldl decStep (ys, acc)).1 n
        = lookupNpred ys n - sl.count n) ∧
    ∃ newAcc, (sl.foldl decStep (ys, acc)).2 = acc ++ newAcc ∧ newAcc.Nodup ∧
      ∀ r ∈ newAcc, r ∈ sl ∧ 0 ≤ lookupNpred ys r ∧
        lookupNpred (sl.foldl decStep (ys, acc)).1 r = 0 := by
  induction sl with
  | nil =>
      intro ys acc _ _
      exact ⟨rfl, fun p => rfl, fun n => by simp, [], by simp, List.nodup_nil,
        fun r hr => absurd hr (List.not_mem_nil r)⟩
  | cons s sl ih =>
      intro ys acc hmem hbound
      have hs_in : s ∈ ys.map Prod.fst := hmem s (List.mem_cons_self s sl)
      have hnp1 : ∀ m, lookupNpred (bumpNpred ys s (-1)) m
          = if m = s then lookupNpred ys m - 1 else lookupNpred ys m := by
        intro m
        rw [lookupNpred_bump ys s (-1) m hs_in]
        by_cases hm : m = s
        · rw [if_pos hm, if_pos hm]
          omega
        · rw [if_neg hm, if_neg hm]
      have hmem1 : ∀ t ∈ sl, t ∈ (bumpNpred ys s (-1)).map Prod.fst := by
        intro t ht
        rw [bumpNpred_map_fst]
        exact hmem t (List.mem_cons_of_mem s ht)
      have hbound1 : ∀ t, 0 ≤ lookupNpred (bumpNpred ys s (-1)) t →
          (sl.count t : Int) ≤ lookupNpred (bumpNpred ys s (-1)) t := by
        intro t ht
        rw [hnp1] at ht ⊢
        by_cases hts : t = s
        · rw [if_pos hts] at ht ⊢
          have h1 : 0 ≤ lookupNpred ys t := by omega
          have h2 := hbound t h1
          rw [hts, count_cons_eq s s] at h2
          rw [if_pos rfl] at h2
          rw [← hts] at h2
          omega
        · rw [if_neg hts] at ht ⊢
          have h2 := hbound t ht
          rw [count_cons_eq t s, if_neg hts] at h2
          omega
      -- unfold one foldl step
      have hstep : (s :: sl).foldl decStep (ys, acc)
          = sl.foldl decStep (decStep (ys, acc) s) := rfl
      by_cases hzero : lookupNpred (bumpNpred ys s (-1)) s = 0
      · have hds : decStep (ys, acc) s = (bumpNpred ys s (-1), acc ++ [s]) := by
          unfold decStep
          rw [if_pos hzero]
        rw [hstep, hds]
        obtain ⟨c1, c2, c3, newAcc, hacc, hnd, hprops⟩ :=
          ih (bumpNpred ys s (-1)) (acc ++ [s]) hmem1 hbound1
        have hcount_s : sl.count s = 0 := by
          have := hbound1 s (le_of_eq hzero.symm)
          rw [hzero] at this
          omega
        refine ⟨by rw [c1, bumpNpred_map_fst], fun p => by rw [c2, lookupSuccs_bump],
          fun n => ?_, s :: newAcc, ?_, ?_, ?_⟩
        · rw [c3, hnp1, count_cons_eq n s]
          by_cases hn : n = s
          · rw [if_pos hn, if_pos hn]
            push_cast
            omega
          · rw [if_neg hn, if_neg hn]
            push_cast
            omega
        · rw [hacc, List.append_assoc]
          rfl
        · rw [List.nodup_cons]
          refine ⟨fun hc => ?_, hnd⟩
          have hsin := (hprops s hc).1
          have hcnt : sl.count s ≠ 0 := fun h0 => (List.count_eq_zero.mp h0) hsin
          omega
        · intro r hr
          rcases List.mem_cons.mp hr with rfl | hr2
          · refine ⟨List.mem_cons_self r sl, ?_, ?_⟩
            · have := hnp1 r
              rw [if_pos rfl] at this
              omega
            · rw [c3, hzero]
              omega
          · obtain ⟨hin, hge, hzero2⟩ := hprops r hr2
            refine ⟨List.mem_cons_of_mem s hin, ?_, hzero2⟩
            have := hnp1 r
            by_cases hrs : r = s
            · rw [if_pos hrs] at this
              omega
            · rw [if_neg hrs] at this
              omega
      · have hds : decStep (ys, acc) s = (bumpNpred ys s (-1), acc) := by
          unfold decStep
          rw [if_neg hzero]
        rw [hstep, hds]
        obtain ⟨c1, c2, c3, newAcc, hacc, hnd, hprops⟩ :=
          ih (bumpNpred ys s (-1)) acc hmem1 hbound1
        refine ⟨by rw [c1, bumpNpred_map_fst], fun p => by rw [c2, lookupSuccs_bump],
          fun n => ?_, newAcc, hacc, hnd, ?_⟩
        · rw [c3, hnp1, count_cons_eq n s]
          by_cases hn : n = s
          · rw [if_pos hn, if_pos hn]
            push_cast
            omega
          · rw [if_neg hn, if_neg hn]
            push_cast
            omega
        · intro r hr
          obtain ⟨hin, hge, hzero2⟩ := hprops r hr
          refine ⟨List.mem_cons_of_mem s hin, ?_, hzero2⟩
          have := hnp1 r
          by_cases hrs : r = s
          · rw [if_pos hrs] at this
            omega
          · rw [if_neg hrs] at this
            omega

theorem succSum_nil (xs0 : NodeInfo) (n : String) : succSum xs0 [] n = 0 := rfl

theorem succSum_cons (xs0 : NodeInfo) (d : String) (ds : List String) (n : String) :
    succSum xs0 (d :: ds) n = (lookupSuccs xs0 d).count n + succSum xs0 ds n := by
  unfold succSum
  rw [List.map_cons, List.sum_cons]

theorem phaseA_spec (ready : List String) : ∀ (xs : NodeInfo),
    (∀ r ∈ ready, r ∈ xs.map Prod.fst) →
    ((ready.foldl (fun ys n => setNpred ys n (-1)) xs).map Prod.fst = xs.map Prod.fst) ∧
    (∀ p, lookupSuccs (ready.foldl (fun ys n => setNpred ys n (-1)) xs) p
        = lookupSuccs xs p) ∧
    ∀ n, lookupNpred (ready.foldl (fun ys n => setNpred ys n (-1)) xs) n
        = if n ∈ ready then -1 else lookupNpred xs n := by
  induction ready with
  | nil =>
      intro xs _
      exact ⟨rfl, fun p => rfl, fun n => by simp⟩
  | cons r ready ih =>
      intro xs hmem
      have hr_in : r ∈ xs.map Prod.fst := hmem r (List.mem_cons_self r ready)
      have hmem1 : ∀ t ∈ ready, t ∈ (setNpred xs r (-1)).map Prod.fst := by
        intro t ht
        rw [setNpred_map_fst]
        exact hmem t (List.mem_cons_of_mem r ht)
      obtain ⟨c1, c2, c3⟩ := ih (setNpred xs r (-1)) hmem1
      rw [show (r :: ready).foldl (fun ys n => setNpred ys n (-1)) xs
          = ready.foldl (fun ys n => setNpred ys n (-1)) (setNpred xs r (-1)) from rfl]
      refine ⟨by rw [c1, setNpred_map_fst], fun p => by rw [c2, lookupSuccs_set], fun n => ?_⟩
      rw [c3, lookupNpred_set xs r (-1) n hr_in]
      by_cases hn1 : n ∈ ready
      · rw [if_pos hn1, if_pos (List.mem_cons_of_mem r hn1)]
      · rw [if_neg hn1]
        by_cases hn2 : n = r
        · rw [if_pos hn2, if_pos (by rw [hn2]; exact List.mem_cons_self r ready)]
        · rw [if_neg hn2, if_neg (by
            rw [List.mem_cons]
            rintro (hc | hc)
            · exact hn2 hc
            · exact hn1 hc)]

theorem procFold_spec (xs0 : NodeInfo) (Drest : List String) : ∀ (ys : NodeInfo)
    (acc : List String),
    (ys.map Prod.fst = xs0.map Prod.fst) →
    (∀ p, lookupSuccs ys p = lookupSuccs xs0 p) →
    (∀ p, ∀ s ∈ lookupSuccs xs0 p, s ∈ xs0.map Prod.fst) →
    (∀ d ∈ Drest, lookupNpred ys d < 0 ∧ d ∈ ys.map Prod.fst) →
    (∀ n, 0 ≤ lookupNpred ys n → (succSum xs0 Drest n : Int) ≤ lookupNpred ys n) →
    (acc.Nodup ∧ ∀ r ∈ acc, lookupNpred ys r = 0) →
    ((Drest.foldl doneNode (ys, acc)).1.map Prod.fst = xs0.map Prod.fst) ∧
    (∀ p, lookupSuccs (Drest.foldl doneNode (ys, acc)).1 p = lookupSuccs xs0 p) ∧
    (∀ n, 0 ≤ lookupNpred ys n →
      lookupNpred (Drest.foldl doneNode (ys, acc)).1 n
        = lookupNpred ys n - succSum xs0 Drest n) ∧
    (∀ n, lookupNpred ys n < 0 → lookupNpred (Drest.foldl doneNode (ys, acc)).1 n < 0) ∧
    ∃ newAcc, (Drest.foldl doneNode (ys, acc)).2 = acc ++ newAcc ∧ newAcc.Nodup ∧
      (∀ r ∈ newAcc, 0 ≤ lookupNpred ys r ∧
        lookupNpred (Drest.foldl doneNode (ys, acc)).1 r = 0 ∧
        r ∈ xs0.map Prod.fst ∧ 0 < succSum xs0 Drest r) := by
  induction Drest with
  | nil =>
      intro ys acc h1 h2 _ _ _ hacc
      simp only [List.foldl_nil]
      refine ⟨h1, h2, fun n _ => by rw [succSum_nil]; omega, fun n hn => hn, [],
        by simp, List.nodup_nil, fun r hr => absurd hr (List.not_mem_nil r)⟩
  | cons d Drest ih =>
      intro ys acc h1 h2 hsuccmem h3 h4 hacc
      have hd := h3 d (List.mem_cons_self d Drest)
      have hsl : lookupSuccs (setNpred ys d (-2)) d = lookupSuccs xs0 d := by
        rw [lookupSuccs_set, h2]
      have hset : ∀ m, lookupNpred (setNpred ys d (-2)) m
          = if m = d then -2 else lookupNpred ys m := fun m =>
        lookupNpred_set ys d (-2) m hd.2
      have hfd_mem : ∀ s ∈ lookupSuccs (setNpred ys d (-2)) d,
          s ∈ (setNpred ys d (-2)).map Prod.fst := by
        intro s hs
        rw [hsl] at hs
        rw [setNpred_map_fst, h1]
        exact hsuccmem d s hs
      have hfd_bound : ∀ t, 0 ≤ lookupNpred (setNpred ys d (-2)) t →
          ((lookupSuccs (setNpred ys d (-2)) d).count t : Int)
            ≤ lookupNpred (setNpred ys d (-2)) t := by
        intro t ht
        rw [hset] at ht ⊢
        by_cases htd : t = d
        · rw [if_pos htd] at ht
          omega
        · rw [if_neg htd] at ht ⊢
          have hb := h4 t ht
          rw [succSum_cons] at hb
          rw [hsl]
          push_cast at hb
          omega
      obtain ⟨f1, f2, f3, newAcc1, facc, fnd, fprops⟩ :=
        foldDec_spec _ (setNpred ys d (-2)) acc hfd_mem hfd_bound
      set ys2 := ((lookupSuccs (setNpred ys d (-2)) d).foldl decStep
        (setNpred ys d (-2), acc)).1 with hys2
      set acc2 := ((lookupSuccs (setNpred ys d (-2)) d).foldl decStep
        (setNpred ys d (-2), acc)).2 with hacc2
      have hnp2 : ∀ n, lookupNpred ys2 n
          = (if n = d then -2 else lookupNpred ys n)
            - ((lookupSuccs xs0 d).count n : Int) := by
        intro n
        rw [f3, hset, hsl]
      have g1 : ys2.map Prod.fst = xs0.map Prod.fst := by
        rw [f1, setNpred_map_fst, h1]
      have g2 : ∀ p, lookupSuccs ys2 p = lookupSuccs xs0 p := by
        intro p
        rw [f2, lookupSuccs_set, h2]
      have g3 : ∀ e ∈ Drest, lookupNpred ys2 e < 0 ∧ e ∈ ys2.map Prod.fst := by
        intro e he
        have h32 := h3 e (List.mem_cons_of_mem d he)
        refine ⟨?_, by rw [g1, ← h1]; exact h32.2⟩
        rw [hnp2]
        by_cases hed : e = d
        · rw [if_pos hed]
          have hc : (0 : Int) ≤ ((lookupSuccs xs0 d).count e : Int) := Int.ofNat_nonneg _
          omega
        · rw [if_neg hed]
          have := h32.1
          have hc : (0 : Int) ≤ ((lookupSuccs xs0 d).count e : Int) := Int.ofNat_nonneg _
          omega
      have g4 : ∀ n, 0 ≤ lookupNpred ys2 n →
          (succSum xs0 Drest n : Int) ≤ lookupNpred ys2 n := by
        intro n hn
        rw [hnp2] at hn ⊢
        by_cases hnd2 : n = d
        · rw [if_pos hnd2] at hn ⊢
          have hc : (0 : Int) ≤ ((lookupSuccs xs0 d).count n : Int) := Int.ofNat_nonneg _
          omega
        · rw [if_neg hnd2] at hn ⊢
          have hlive : (0 : Int) ≤ lookupNpred ys n := by
            have hc : (0 : Int) ≤ ((lookupSuccs xs0 d).count n : Int) := Int.ofNat_nonneg _
            omega
          have hb := h4 n hlive
          rw [succSum_cons] at hb
          push_cast at hb ⊢
          omega
      have hcnt_acc : ∀ a ∈ acc, (lookupSuccs xs0 d).count a = 0 ∧
          succSum xs0 Drest a = 0 := by
        intro a ha
        have hz := hacc.2 a ha
        have hsum := h4 a (le_of_eq hz.symm)
        rw [succSum_cons, hz] at hsum
        push_cast at hsum
        omega
      have g6 : acc2.Nodup ∧ ∀ r ∈ acc2, lookupNpred ys2 r = 0 := by
        rw [facc]
        constructor
        · rw [List.nodup_append]
          refine ⟨hacc.1, fnd, fun a ha hb => ?_⟩
          have h0 := (hcnt_acc a ha).1
          have hmem1 := (fprops a hb).1
          rw [hsl] at hmem1
          exact (List.count_eq_zero.mp h0) hmem1
        · intro r hr
          rcases List.mem_append.mp hr with hr | hr
          · have hz := hacc.2 r hr
            have h0 := (hcnt_acc r hr).1
            have hrd : r ≠ d := fun hrd => by
              rw [hrd] at hz
              have := hd.1
              omega
            rw [hnp2, if_neg hrd, hz, h0]
            norm_num
          · exact (fprops r hr).2.2
      have hconv : (d :: Drest).foldl doneNode (ys, acc)
          = Drest.foldl doneNode (ys2, acc2) := rfl
      obtain ⟨i1, i2, i3, i4, newAcc2, iacc, ind, iprops⟩ :=
        ih ys2 acc2 g1 g2 hsuccmem g3 g4 g6
      rw [hconv]
      refine ⟨i1, i2, ?_, ?_, newAcc1 ++ newAcc2, ?_, ?_, ?_⟩
      · intro n hn
        have hnd : n ≠ d := fun hnd => by
          rw [hnd] at hn
          have := hd.1
          omega
        have hb := h4 n hn
        rw [succSum_cons] at hb
        have hlive2 : 0 ≤ lookupNpred ys2 n := by
          rw [hnp2, if_neg hnd]
          push_cast at hb
          omega
        rw [i3 n hlive2, hnp2, if_neg hnd, succSum_cons]
        push_cast
        omega
      · intro n hn
        refine i4 n ?_
        rw [hnp2]
        have hc : (0 : Int) ≤ ((lookupSuccs xs0 d).count n : Int) := Int.ofNat_nonneg _
        by_cases hnd : n = d
        · rw [if_pos hnd]
          omega
        · rw [if_neg hnd]
          omega
      · rw [iacc, facc, List.append_assoc]
      · rw [List.nodup_append]
        refine ⟨fnd, ind, fun a ha hb => ?_⟩
        have h01 := (fprops a ha).2.2
        have hs0 : succSum xs0 Drest a = 0 := by
          have := g4 a (le_of_eq h01.symm)
          rw [h01] at this
          omega
        have := (iprops a hb).2.2.2
        omega
      · intro r hr
        rcases List.mem_append.mp hr with hr | hr
        · obtain ⟨hr1, hr2, hr3⟩ := fprops r hr
          rw [hsl] at hr1
          rw [hset] at hr2
          have hrd : r ≠ d := fun hrd => by
            rw [if_pos hrd] at hr2
            omega
          rw [if_neg hrd] at hr2
          have hcnt : (lookupSuccs xs0 d).count r ≠ 0 :=
            fun h0 => (List.count_eq_zero.mp h0) hr1
          have hs0 : succSum xs0 Drest r = 0 := by
            have := g4 r (le_of_eq hr3.symm)
            rw [hr3] at this
            omega
          refine ⟨hr2, ?_, hsuccmem d r hr1, ?_⟩
          · rw [i3 r (le_of_eq hr3.symm), hr3, hs0]
            norm_num
          · rw [succSum_cons]
            omega
        · obtain ⟨j1, j2, j3, j4⟩ := iprops r hr
          have hj1 : 0 ≤ lookupNpred ys r := by
            rw [hnp2] at j1
            have hc : (0 : Int) ≤ ((lookupSuccs xs0 d).count r : Int) := Int.ofNat_nonneg _
            by_cases hrd : r = d
            · rw [if_pos hrd] at j1
              omega
            · rw [if_neg hrd] at j1
              omega
          refine ⟨hj1, j2, j3, ?_⟩
          rw [succSum_cons]
          omega

theorem processBatch_spec (g : List (String × List String)) (xs : NodeInfo)
    (ready : List String) (hinv : KahnInv g xs ready) :
    KahnInv g (processBatch xs ready).1 (processBatch xs ready).2 ∧
    ∀ n, lookupNpred (processBatch xs ready).1 n < 0 ↔
      (lookupNpred xs n < 0 ∨ n ∈ ready) := by
  have hpb : processBatch xs ready
      = ready.foldl doneNode (ready.foldl (fun ys n => setNpred ys n (-1)) xs, []) := rfl
  rw [hpb]
  obtain ⟨a1, a2, a3⟩ := phaseA_spec ready xs hinv.ready_mem
  have hSn : ∀ m, succSum xs ready m
      = (predsOf g m).countP fun x => decide (x ∈ ready) := by
    intro m
    unfold succSum
    rw [show (ready.map fun d => (lookupSuccs xs d).count m)
        = ready.map fun d => (predsOf g m).count d from
      List.map_congr_left fun d _ => hinv.succ_count d m]
    exact countP_eq_sum_count ready (predsOf g m) hinv.ready_nodup
  have hh3 : ∀ e ∈ ready,
      lookupNpred (ready.foldl (fun ys n => setNpred ys n (-1)) xs) e < 0 ∧
      e ∈ (ready.foldl (fun ys n => setNpred ys n (-1)) xs).map Prod.fst := by
    intro e he
    refine ⟨by rw [a3, if_pos he]; norm_num, ?_⟩
    rw [a1]
    exact hinv.ready_mem e he
  have hh4 : ∀ m, 0 ≤ lookupNpred (ready.foldl (fun ys n => setNpred ys n (-1)) xs) m →
      (succSum xs ready m : Int)
        ≤ lookupNpred (ready.foldl (fun ys n => setNpred ys n (-1)) xs) m := by
    intro m hm
    rw [a3] at hm ⊢
    by_cases hmr : m ∈ ready
    · rw [if_pos hmr] at hm
      omega
    · rw [if_neg hmr] at hm ⊢
      have e1 := hinv.counts m hm
      rw [← List.countP_eq_length_filter] at e1
      have e3 : (predsOf g m).countP (fun x => decide (x ∈ ready))
          ≤ (predsOf g m).countP fun x => decide (0 ≤ lookupNpred xs x) := by
        refine countP_mono_of_imp _ _ _ fun x _ hx => ?_
        rw [decide_eq_true_eq] at hx
        exact decide_eq_true (le_of_eq (hinv.ready_zero x hx).symm)
      rw [hSn m, e1]
      exact_mod_cast e3
  obtain ⟨p1, p2, p3, p4, newAcc, pacc, pnd, pprops⟩ :=
    procFold_spec xs ready (ready.foldl (fun ys n => setNpred ys n (-1)) xs) []
      a1 a2 hinv.succ_mem hh3 hh4
      ⟨List.nodup_nil, fun r hr => absurd hr (List.not_mem_nil r)⟩
  rw [List.nil_append] at pacc
  have hneg_iff : ∀ n,
      lookupNpred (ready.foldl doneNode
        (ready.foldl (fun ys n => setNpred ys n (-1)) xs, [])).1 n < 0 ↔
      (lookupNpred xs n < 0 ∨ n ∈ ready) := by
    intro n
    constructor
    · intro hlt
      by_contra hc
      push_neg at hc
      have h2 : 0 ≤ lookupNpred xs n := hc.1
      have hXA : 0 ≤ lookupNpred (ready.foldl (fun ys n => setNpred ys n (-1)) xs) n := by
        rw [a3, if_neg hc.2]
        exact h2
      have hf := p3 n hXA
      have hb := hh4 n hXA
      omega
    · intro h
      refine p4 n ?_
      rw [a3]
      rcases h with h | h
      · by_cases hr : n ∈ ready
        · rw [if_pos hr]
          norm_num
        · rw [if_neg hr]
          exact h
      · rw [if_pos h]
        norm_num
  refine ⟨?_, hneg_iff⟩
  constructor
  · rw [p1]
    exact hinv.names_eq
  · rw [p1]
    exact hinv.names_nodup
  · intro p
    rw [p2]
    exact hinv.succs_eq p
  · intro p n
    rw [p2]
    exact hinv.succ_count p n
  · intro p s hs
    rw [p2] at hs
    rw [p1]
    exact hinv.succ_mem p s hs
  · rw [pacc]
    exact pnd
  · intro r hr
    rw [pacc] at hr
    rw [p1]
    exact (pprops r hr).2.2.1
  · intro r hr
    rw [pacc] at hr
    exact (pprops r hr).2.1
  · intro n hn
    have hn' := not_lt.mpr hn
    have hc : ¬ (lookupNpred xs n < 0 ∨ n ∈ ready) := fun h => hn' ((hneg_iff n).mpr h)
    have hn_xs : 0 ≤ lookupNpred xs n := by
      by_contra h
      exact hc (Or.inl (not_le.mp h))
    have hn_rdy : n ∉ ready := fun h => hc (Or.inr h)
    have hXA : 0 ≤ lookupNpred (ready.foldl (fun ys n => setNpred ys n (-1)) xs) n := by
      rw [a3, if_neg hn_rdy]
      exact hn_xs
    have hp3n := p3 n hXA
    rw [a3, if_neg hn_rdy] at hp3n
    have e1 := hinv.counts n hn_xs
    rw [← List.countP_eq_length_filter] at e1
    have e2 := countP_split (predsOf g n)
      (fun x => decide (0 ≤ lookupNpred xs x)) fun x => decide (x ∈ ready)
    have e3 : (predsOf g n).countP (fun x => decide (x ∈ ready))
        = (predsOf g n).countP fun x =>
            decide (0 ≤ lookupNpred xs x) && decide (x ∈ ready) := by
      refine countP_congr_of_mem _ _ _ fun x _ => ?_
      by_cases hx : x ∈ ready
      · simp [hx, hinv.ready_zero x hx]
      · simp [hx]
    have e4 : (predsOf g n).countP (fun x => decide (0 ≤ lookupNpred
          (ready.foldl doneNode
            (ready.foldl (fun ys n => setNpred ys n (-1)) xs, [])).1 x))
        = (predsOf g n).countP fun x =>
            decide (0 ≤ lookupNpred xs x) && !decide (x ∈ ready) := by
      refine countP_congr_of_mem _ _ _ fun x _ => ?_
      by_cases hx1 : x ∈ ready
      · have hneg := (hneg_iff x).mpr (Or.inr hx1)
        simp [hx1, not_le.mpr hneg]
      · by_cases hx2 : 0 ≤ lookupNpred xs x
        · have hpos : 0 ≤ lookupNpred (ready.foldl doneNode
              (ready.foldl (fun ys n => setNpred ys n (-1)) xs, [])).1 x := by
            by_contra hcon
            rcases (hneg_iff x).mp (not_le.mp hcon) with h | h
            · omega
            · exact hx1 h
          simp [hx1, hx2, hpos]
        · have hneg := (hneg_iff x).mpr (Or.inl (not_le.mp hx2))
          simp [hx1, hx2, not_le.mpr hneg]
    rw [← List.countP_eq_length_filter, e4, hp3n, e1, hSn n, e3, e2]
    push_cast
    omega

theorem appearsBefore_append_left (l0 l : List String) (a b : String)
    (h : appearsBefore l a b) : appearsBefore (l0 ++ l) a b := by
  obtain ⟨l1, l2, heq, ha, hb⟩ := h
  exact ⟨l0 ++ l1, l2, by rw [heq, List.append_assoc],
    List.mem_append_right l0 ha, hb⟩

theorem appearsBefore_of_mem_mem (l1 l2 : List String) (a b : String)
    (ha : a ∈ l1) (hb : b ∈ l2) : appearsBefore (l1 ++ l2) a b :=
  ⟨l1, l2, rfl, ha, hb⟩

theorem appearsBefore_indexOf_lt (l : List String) (a b : String)
    (hab : appearsBefore l a b) (hnd : l.Nodup) : l.indexOf a < l.indexOf b := by
  obtain ⟨l1, l2, rfl, ha, hb⟩ := hab
  have hdisj := (List.nodup_append.mp hnd).2.2
  have hbl1 : b ∉ l1 := fun hc => hdisj hc hb
  rw [List.indexOf_append_of_mem ha, List.indexOf_append_of_not_mem hbl1]
  have := List.indexOf_lt_length.mpr ha
  omega

theorem kahnLoop_topo (g : List (String × List String)) :
    ∀ (fuel : Nat) (xs : NodeInfo) (ready : List String), KahnInv g xs ready →
    (kahnLoop fuel xs ready).Nodup ∧
    (∀ n ∈ kahnLoop fuel xs ready, n ∈ xs.map Prod.fst ∧ 0 ≤ lookupNpred xs n) ∧
    ∀ n ∈ kahnLoop fuel xs ready, ∀ p ∈ predsOf g n,
      lookupNpred xs p < 0 ∨ appearsBefore (kahnLoop fuel xs ready) p n := by
  intro fuel
  induction fuel with
  | zero =>
      intro xs ready _
      exact ⟨List.nodup_nil, fun n hn => absurd hn (List.not_mem_nil n),
        fun n hn => absurd hn (List.not_mem_nil n)⟩
  | succ fuel ih =>
      intro xs ready hinv
      by_cases hrdy : ready.isEmpty
      · rw [show kahnLoop (fuel + 1) xs ready = [] from by rw [kahnLoop, if_pos hrdy]]
        exact ⟨List.nodup_nil, fun n hn => absurd hn (List.not_mem_nil n),
          fun n hn => absurd hn (List.not_mem_nil n)⟩
      · have hunf : kahnLoop (fuel + 1) xs ready
            = ready ++ kahnLoop fuel (processBatch xs ready).1 (processBatch xs ready).2 := by
          rw [kahnLoop, if_neg hrdy]
        obtain ⟨hinv2, hneg⟩ := processBatch_spec g xs ready hinv
        obtain ⟨ihnd, ihmem, ihord⟩ :=
          ih (processBatch xs ready).1 (processBatch xs ready).2 hinv2
        rw [hunf]
        refine ⟨?_, ?_, ?_⟩
        · rw [List.nodup_append]
          refine ⟨hinv.ready_nodup, ihnd, fun a ha hb => ?_⟩
          have h1 := (ihmem a hb).2
          have h2 := (hneg a).mpr (Or.inr ha)
          omega
        · intro n hn
          rcases List.mem_append.mp hn with hn | hn
          · exact ⟨hinv.ready_mem n hn, le_of_eq (hinv.ready_zero n hn).symm⟩
          · obtain ⟨hm, hl⟩ := ihmem n hn
            have hnames : (processBatch xs ready).1.map Prod.fst = xs.map Prod.fst := by
              rw [hinv2.names_eq, hinv.names_eq]
            rw [hnames] at hm
            refine ⟨hm, ?_⟩
            by_contra hcon
            have := (hneg n).mpr (Or.inl (not_le.mp hcon))
            omega
        · intro n hn p hp
          rcases List.mem_append.mp hn with hn | hn
          · left
            by_contra hcon
            have hge : 0 ≤ lookupNpred xs p := not_lt.mp hcon
            have hz := hinv.ready_zero n hn
            have hcnt := hinv.counts n (le_of_eq hz.symm)
            rw [hz] at hcnt
            have hpmem : p ∈ (predsOf g n).filter fun q => decide (0 ≤ lookupNpred xs q) :=
              List.mem_filter.mpr ⟨hp, decide_eq_true hge⟩
            have hlen : 0 <
                ((predsOf g n).filter fun q => decide (0 ≤ lookupNpred xs q)).length :=
              List.length_pos.mpr (List.ne_nil_of_mem hpmem)
            omega
          · rcases ihord n hn p hp with hdone | hbefore
            · rw [hneg p] at hdone
              rcases hdone with h | h
              · exact Or.inl h
              · exact Or.inr (appearsBefore_of_mem_mem ready _ p n h hn)
            · exact Or.inr (appearsBefore_append_left ready _ p n hbefore)

theorem staticOrder_topo (g : List (String × List String))
    (hnd : (g.map Prod.fst).Nodup) (ord : List String)
    (hord : staticOrder g = some ord) :
    ord.Perm ((buildInfo g).map Prod.fst) ∧
    ∀ n ∈ ord, ∀ p ∈ predsOf g n, appearsBefore ord p n := by
  have hbi := buildInfo_inv g hnd
  have hinv : KahnInv g (buildInfo g)
      (((buildInfo g).filter fun e => decide (e.2.1 = 0)).map fun e => e.1) := by
    constructor
    · rfl
    · exact hbi.names_nodup
    · intro p
      rfl
    · exact hbi.succ_count
    · exact hbi.succ_mem
    · have hsub : (((buildInfo g).filter fun e => decide (e.2.1 = 0)).map fun e => e.1).Sublist
          ((buildInfo g).map Prod.fst) :=
        List.Sublist.map _ (List.filter_sublist _)
      exact hsub.nodup hbi.names_nodup
    · intro r hr
      obtain ⟨e, he, hre⟩ := List.mem_map.mp hr
      rw [← hre]
      exact List.mem_map.mpr ⟨e, (List.mem_filter.mp he).1, rfl⟩
    · intro r hr
      obtain ⟨e, he, hre⟩ := List.mem_map.mp hr
      obtain ⟨hmem, hz⟩ := List.mem_filter.mp he
      rw [decide_eq_true_eq] at hz
      rw [← hre, lookupNpred_of_mem_nodup (buildInfo g) hbi.names_nodup e hmem, hz]
    · intro n _
      rw [hbi.npred n]
      have hfe : ((predsOf g n).filter fun p => decide (0 ≤ lookupNpred (buildInfo g) p))
          = predsOf g n := by
        refine List.filter_eq_self.mpr fun p _ => ?_
        rw [decide_eq_true_eq, hbi.npred p]
        exact Int.ofNat_nonneg _
      rw [hfe]
  simp only [staticOrder] at hord
  split_ifs at hord with hlen
  · rw [Option.some.injEq] at hord
    subst hord
    have hKT := kahnLoop_topo g ((buildInfo g).length + 1) (buildInfo g) _ hinv
    obtain ⟨hnd_out, hmem_out, hord_out⟩ := hKT
    have hsub := List.subperm_of_subset hnd_out fun n hn => (hmem_out n hn).1
    refine ⟨hsub.perm_of_length_le (by rw [List.length_map]; omega), ?_⟩
    intro n hn p hp
    rcases hord_out n hn p hp with h | h
    · rw [hbi.npred p] at h
      exact absurd h (by omega)
    · exact h

theorem dictInsert_not_mem {β : Type} (acc : List (String × β)) (kv : String × β)
    (h : ∀ a ∈ acc, a.1 ≠ kv.1) : dictInsert acc kv = acc ++ [kv] := by
  have hany : (acc.any fun e => decide (e.1 = kv.1)) = false := by
    rw [List.any_eq_false]
    intro a ha
    simp only [decide_eq_true_eq]
    exact h a ha
  simp only [dictInsert, hany, Bool.false_eq_true, if_false]

theorem dictItems_fold {β : Type} : ∀ (xs acc : List (String × β)),
    (∀ x ∈ xs, ∀ a ∈ acc, a.1 ≠ x.1) → (xs.map Prod.fst).Nodup →
    xs.foldl dictInsert acc = acc ++ xs := by
  intro xs
  induction xs with
  | nil =>
      intro acc _ _
      rw [List.foldl_nil, List.append_nil]
  | cons x xs ih =>
      intro acc hdisj hnd
      rw [List.map_cons, List.nodup_cons] at hnd
      have hd2 : ∀ y ∈ xs, ∀ a ∈ acc ++ [x], a.1 ≠ y.1 := by
        intro y hy a ha
        rcases List.mem_append.mp ha with ha | ha
        · exact hdisj y (List.mem_cons_of_mem x hy) a ha
        · rw [List.mem_singleton] at ha
          rw [ha]
          intro hc
          exact hnd.1 (by rw [hc]; exact List.mem_map.mpr ⟨y, hy, rfl⟩)
      rw [List.foldl_cons,
        dictInsert_not_mem acc x fun a ha => hdisj x (List.mem_cons_self x xs) a ha,
        ih (acc ++ [x]) hd2 hnd.2, List.append_assoc]
      rfl

theorem dictItems_eq_self {β : Type} (xs : List (String × β))
    (hnd : (xs.map Prod.fst).Nodup) : dictItems xs = xs := by
  unfold dictItems
  rw [dictItems_fold xs [] (fun x _ a ha => absurd ha (List.not_mem_nil a)) hnd,
    List.nil_append]

theorem predsOf_of_mem_nodup : ∀ (g : List (String × List String)),
    (g.map Prod.fst).Nodup → ∀ n ps, (n, ps) ∈ g → predsOf g n = ps := by
  intro g
  induction g with
  | nil =>
      intro _ n ps h
      exact absurd h (List.not_mem_nil _)
  | cons e g ih =>
      intro hnd n ps h
      rw [List.map_cons, List.nodup_cons] at hnd
      rcases List.mem_cons.mp h with rfl | h2
      · unfold predsOf
        rw [List.find?_cons_of_pos _ (by simp)]
        rfl
      · have hne : (fun e2 => decide (e2.1 = n)) e = false := by
          simp only [decide_eq_false_iff_not]
          intro hc
          exact hnd.1 (by rw [hc]; exact List.mem_map.mpr ⟨(n, ps), h2, rfl⟩)
        unfold predsOf
        rw [List.find?_cons_of_neg _ (by simp only [hne]; exact Bool.false_ne_true)]
        exact ih hnd.2 n ps h2

theorem sorted_split_of_key_lt {α : Type} (key : α → Nat) :
    ∀ (l : List α), l.Pairwise (fun a b => key a ≤ key b) →
    ∀ x ∈ l, ∀ y ∈ l, key x < key y →
    ∃ l1 l2, l = l1 ++ l2 ∧ x ∈ l1 ∧ y ∈ l2 := by
  intro l
  induction l with
  | nil =>
      intro _ x hx
      exact absurd hx (List.not_mem_nil x)
  | cons a t ih =>
      intro hpw x hx y hy hk
      rw [List.pairwise_cons] at hpw
      rcases List.mem_cons.mp hx with hxa | hx2
      · refine ⟨[x], t, by rw [hxa]; rfl, List.mem_singleton_self x, ?_⟩
        rcases List.mem_cons.mp hy with hya | hy2
        · rw [hxa, ← hya] at hk
          exact absurd hk (lt_irrefl _)
        · exact hy2
      · have hyt : y ∈ t := by
          rcases List.mem_cons.mp hy with hya | hy2
          · rw [hya] at hk
            exact absurd hk (not_lt.mpr (hpw.1 x hx2))
          · exact hy2
        obtain ⟨l1, l2, heq, hx1, hy2⟩ := ih hpw.2 x hx2 y hyt hk
        exact ⟨a :: l1, l2, by rw [heq]; rfl, List.mem_cons_of_mem a hx1, hy2⟩

/-- C2 (amended): for every collection of class definitions with distinct names
on which `_sorted_class_defs` succeeds (the base-class graph is acyclic), the
output is a permutation of the input in which every parent class appears
strictly before every class listing it as a base.  The lexicographic tie-break
part of the original claim is refuted by `sorted_class_defs_not_lexicographic`.
-/
theorem sorted_class_defs_parents_first (class_defs out : List Stmt) (c : Stmt)
    (b : String) (hnames : (class_defs.map clsName).Nodup)
    (hout : sorted_class_defs class_defs = some out)
    (hc : c ∈ class_defs) (hb : b ∈ clsBases c)
    (hbdef : b ∈ class_defs.map clsName) :
    out.Perm class_defs ∧ appearsBefore (out.map clsName) b (clsName c) := by
  simp only [sorted_class_defs] at hout
  set ordered := List.insertionSort
    (fun a b => pyStrLe (clsName a) (clsName b) = true) class_defs with hordered
  have hperm1 : ordered.Perm class_defs := List.perm_insertionSort _ class_defs
  have hkeysEq : ((ordered.map fun x => (clsName x, clsBases x)).map Prod.fst)
      = ordered.map clsName := by
    rw [List.map_map]
    rfl
  have hkeysNodup : ((ordered.map fun x => (clsName x, clsBases x)).map Prod.fst).Nodup := by
    rw [hkeysEq]
    exact ((hperm1.map clsName).nodup_iff).mpr hnames
  rw [dictItems_eq_self _ hkeysNodup] at hout
  split at hout
  · exact absurd hout (by simp)
  · rename_i ord0 hSO
    rw [Option.some.injEq] at hout
    subst hout
    obtain ⟨hperm0, hedges⟩ := staticOrder_topo _ hkeysNodup ord0 hSO
    have hbiG := buildInfo_inv _ hkeysNodup
    have hnd0 : ord0.Nodup := (hperm0.nodup_iff).mpr hbiG.names_nodup
    have hmemG : ∀ x ∈ class_defs,
        (clsName x, clsBases x) ∈ ordered.map fun x => (clsName x, clsBases x) :=
      fun x hx => List.mem_map.mpr ⟨x, hperm1.mem_iff.mpr hx, rfl⟩
    have hkeyG : ∀ x ∈ class_defs, clsName x ∈ ord0 := by
      intro x hx
      exact hperm0.mem_iff.mpr (hbiG.keys_mem _ (hmemG x hx))
    have hpreds : predsOf (ordered.map fun x => (clsName x, clsBases x)) (clsName c)
        = clsBases c :=
      predsOf_of_mem_nodup _ hkeysNodup (clsName c) (clsBases c) (hmemG c hc)
    obtain ⟨cb, hcb, hcbname⟩ := List.mem_map.mp hbdef
    have hedge : appearsBefore ord0 b (clsName c) := by
      refine hedges (clsName c) (hkeyG c hc) b ?_
      rw [hpreds]
      exact hb
    have hlt : ord0.indexOf b < ord0.indexOf (clsName c) :=
      appearsBefore_indexOf_lt ord0 b (clsName c) hedge hnd0
    haveI : IsTotal Stmt fun a b => ord0.indexOf (clsName a) ≤ ord0.indexOf (clsName b) :=
      ⟨fun a b => Nat.le_total _ _⟩
    haveI : IsTrans Stmt fun a b => ord0.indexOf (clsName a) ≤ ord0.indexOf (clsName b) :=
      ⟨fun a b c hab hbc => Nat.le_trans hab hbc⟩
    have hsorted := List.sorted_insertionSort
      (fun a b => ord0.indexOf (clsName a) ≤ ord0.indexOf (clsName b)) ordered
    have hperm2 : (List.insertionSort
        (fun a b => ord0.indexOf (clsName a) ≤ ord0.indexOf (clsName b)) ordered).Perm
        ordered := List.perm_insertionSort _ ordered
    refine ⟨hperm2.trans hperm1, ?_⟩
    obtain ⟨l1, l2, hsplit, hx1, hy2⟩ :=
      sorted_split_of_key_lt (fun x => ord0.indexOf (clsName x)) _ hsorted cb
        (hperm2.mem_iff.mpr (hperm1.mem_iff.mpr hcb)) c
        (hperm2.mem_iff.mpr (hperm1.mem_iff.mpr hc))
        (by show ord0.indexOf (clsName cb) < ord0.indexOf (clsName c)
            rw [hcbname]
            exact hlt)
    rw [hsplit, List.map_append]
    exact ⟨l1.map clsName, l2.map clsName, rfl,
      by rw [← hcbname]; exact List.mem_map.mpr ⟨cb, hx1, rfl⟩,
      List.mem_map.mpr ⟨c, hy2, rfl⟩⟩

/-- C2 counterexample: with class definitions `A(C)`, `B`, `C` (names distinct,
`B` and `C` both parentless, hence unordered by the dependency relation),
`_sorted_class_defs` returns `[C, B, A]` even though `"B"` precedes `"C"` in
code-point order: classes not ordered by the dependency relation are NOT
emitted in lexicographic name order.  `C` precedes `B` because the ready list
of `prepare()` follows `_node2info` insertion order, in which `C` appears
first (as a base of `A`), and the final stable sort keys only on the static
order. -/
theorem sorted_class_defs_not_lexicographic :
    sorted_class_defs [exClsA, exClsB, exClsC] = some [exClsC, exClsB, exClsA] ∧
    clsBases exClsB = [] ∧ clsBases exClsC = [] ∧
    charsLt "B".data "C".data = true :=
  ⟨rfl, rfl, rfl, by decide⟩

theorem sorted_class_defs_parents_first_witness :
    (([exChild, exParent].map clsName).Nodup ∧
      sorted_class_defs [exChild, exParent] = some [exParent, exChild]) ∧
    [exParent, exChild].Perm [exChild, exParent] ∧
    appearsBefore ([exParent, exChild].map clsName) "Parent" (clsName exChild) :=
  ⟨⟨by decide, rfl⟩,
    sorted_class_defs_parents_first [exChild, exParent] [exParent, exChild] exChild
      "Parent" (by decide) rfl (List.mem_cons_self exChild [exParent])
      (by decide) (by decide)⟩

end WandbVer
